import Mathlib

/-!
Verification of the multi-agent orchestration engine
(backend/orchestrator/engine.py) against its specification.

The Python data model (backend/models/workflow.py,
backend/models/execution.py, backend/agents/base.py) and the engine are
embedded shallowly: Python dicts used as ordered maps become association
lists, datetime timestamps become an abstract Nat clock threaded through the
run, Python int becomes Int (Nat where the source can only produce
non-negative values), float cost accounting becomes Rat, and exceptions
become Except / explicit failure outcomes.
-/

namespace SuperAgent

/-- Python payload values threaded through the pipeline (the Any-typed
inputs/outputs of agents). -/
inductive Value where
  | vnone : Value
  | vstr : String → Value
  | vint : Int → Value
  | vdict : List (String × Value) → Value

/-- Rendering of a non-string Python value by str()/json.dumps, used only to
build the record field Execution.input (engine.py input_str); the engine
never reads this string back, so only its existence matters below. -/
def pyStrFields : Value → String
  | .vnone => "None"
  | .vstr s => s
  | .vint i => toString i
  | .vdict kvs => "\x7bdict of " ++ toString kvs.length ++ " entries\x7d"

/-- input_str normalisation at the top of execute_workflow: a dict input is
json.dumps-ed, a string is kept as-is, anything else goes through str(). -/
def toInputStr : Value → String
  | .vstr s => s
  | v => pyStrFields v

/-- Execution status enum (models/execution.py ExecutionStatus). -/
inductive ExecutionStatus where
  | pending
  | running
  | completed
  | failed
  deriving Repr, DecidableEq

/-- Agent configuration blob (models/workflow.py AgentConfig); opaque to the
engine, carried only so nodes compare by all their data. -/
structure AgentConfig where
  params : List (String × Value) := []

/-- Agent node of a workflow (models/workflow.py AgentNode). The canvas
position and description play no role in execution and are omitted. -/
structure AgentNode where
  id : String
  type : String
  name : String
  config : AgentConfig := {}

/-- Directed edge between two agent ids (models/workflow.py WorkflowEdge). -/
structure WorkflowEdge where
  source : String
  target : String
  deriving Repr, DecidableEq

/-- Workflow definition (models/workflow.py Workflow); timestamps and
authorship metadata are irrelevant to execution and omitted. -/
structure Workflow where
  id : String
  name : String
  agents : List AgentNode
  edges : List WorkflowEdge

/-- Result returned by an agent implementation itself
(agents/base.py AgentExecutionResult — the agent-contract result). -/
structure AgentExecResult where
  success : Bool
  output : Value
  sources : Option (List Value) := none
  tokens_used : Int := 0
  cost : Rat := 0
  error : Option String := none

/-- Per-agent metrics (models/execution.py AgentExecutionMetrics). -/
structure AgentExecutionMetrics where
  agent_id : String
  agent_name : String
  started_at : Nat
  completed_at : Option Nat := none
  status : ExecutionStatus
  tokens_used : Int := 0
  cost : Rat := 0
  latency_ms : Nat := 0
  deriving Repr, DecidableEq

/-- Aggregate metrics (models/execution.py ExecutionMetrics). -/
structure ExecutionMetrics where
  total_tokens : Int
  total_cost : Rat
  total_latency_ms : Nat
  agents : List AgentExecutionMetrics
  deriving Repr, DecidableEq

/-- Per-node result recorded by the engine
(models/execution.py AgentExecutionResult, imported by the engine as
ModelAgentExecResult). -/
structure ModelAgentExecResult where
  agent_id : String
  agent_name : String
  started_at : Nat
  completed_at : Nat
  status : ExecutionStatus
  output : Value
  sources : Option (List Value) := none
  metrics : AgentExecutionMetrics

/-- Execution record (models/execution.py Execution). -/
structure Execution where
  id : String
  workflow_id : String
  status : ExecutionStatus
  started_at : Nat
  completed_at : Option Nat := none
  input : String
  results : Option Value := none
  metrics : Option ExecutionMetrics := none
  agent_executions : List ModelAgentExecResult := []

/-- Outcome of one call agent.execute(input, context): either the returned
AgentExecResult, or an exception carrying a message. Exceptions raised while
constructing the agent (other than the unknown-type ValueError, which is
modelled explicitly) are also covered by the exn constructor, since the
engine wraps construction and execution in the same try block. -/
inductive AgentOutcome where
  | ret : AgentExecResult → AgentOutcome
  | exn : String → AgentOutcome

/-- The dynamic context the engine calls into: the set of agent types known
to AgentRegistry, the runtime behaviour of each constructed agent, and the
wall-clock duration of each call (the engine uses timestamps only to compute
latency_ms, so durations are the only temporal data needed). -/
structure Env where
  registry : List String
  behave : AgentNode → Value → AgentOutcome
  dur : AgentNode → Value → Nat

/-- Message of the ValueError raised by AgentRegistry.get_agent_class for an
unregistered type (agents/base.py). -/
def unknownAgentMsg (t : String) : String := "Unknown agent type: " ++ t

/-- OrchestrationEngine._execute_agent: construct the agent through the
registry, run it, and convert the outcome into a ModelAgentExecResult.
Every exception (unknown-type ValueError from create_agent, or one raised
inside agent.execute) is caught and becomes a failed result whose output is
a dict carrying the message under the error key. -/
def executeAgent (env : Env) (node : AgentNode) (input : Value) (t : Nat) :
    ModelAgentExecResult :=
  let started_at := t
  let completed_at := t + env.dur node input
  let latency_ms := env.dur node input
  if node.type ∈ env.registry then
    match env.behave node input with
    | .ret r =>
      let status := if r.success then ExecutionStatus.completed else ExecutionStatus.failed
      { agent_id := node.id
        agent_name := node.name
        started_at := started_at
        completed_at := completed_at
        status := status
        output := r.output
        sources := r.sources
        metrics :=
          { agent_id := node.id
            agent_name := node.name
            started_at := started_at
            completed_at := some completed_at
            status := status
            tokens_used := r.tokens_used
            cost := r.cost
            latency_ms := latency_ms } }
    | .exn msg =>
      { agent_id := node.id
        agent_name := node.name
        started_at := started_at
        completed_at := completed_at
        status := ExecutionStatus.failed
        output := .vdict [("error", .vstr msg)]
        sources := none
        metrics :=
          { agent_id := node.id
            agent_name := node.name
            started_at := started_at
            completed_at := some completed_at
            status := ExecutionStatus.failed
            tokens_used := 0
            cost := 0
            latency_ms := latency_ms } }
  else
    { agent_id := node.id
      agent_name := node.name
      started_at := started_at
      completed_at := completed_at
      status := ExecutionStatus.failed
      output := .vdict [("error", .vstr (unknownAgentMsg node.type))]
      sources := none
      metrics :=
        { agent_id := node.id
          agent_name := node.name
          started_at := started_at
          completed_at := some completed_at
          status := ExecutionStatus.failed
          tokens_used := 0
          cost := 0
          latency_ms := latency_ms } }

/-- The per-node loop of execute_workflow: run the resolved nodes in order,
threading current_output, and stop at the first result whose status is not
completed. Returns the accumulated agent_executions list, some final output
when every node completed (none when the loop stopped on a failure), and the
clock after the loop. -/
def runAgents (env : Env) : List AgentNode → Value → Nat →
    List ModelAgentExecResult × Option Value × Nat
  | [], cur, t => ([], some cur, t)
  | node :: rest, cur, t =>
    let r := executeAgent env node cur t
    let t2 := t + env.dur node cur
    if r.status = ExecutionStatus.completed then
      let step := runAgents env rest r.output t2
      (r :: step.1, step.2.1, step.2.2)
    else
      ([r], none, t2)

/-- OrchestrationEngine._calculate_metrics. -/
def calculateMetrics (agent_executions : List ModelAgentExecResult) :
    ExecutionMetrics :=
  { total_tokens := (agent_executions.map (fun ae => ae.metrics.tokens_used)).sum
    total_cost := (agent_executions.map (fun ae => ae.metrics.cost)).sum
    total_latency_ms := (agent_executions.map (fun ae => ae.metrics.latency_ms)).sum
    agents := agent_executions.map (fun ae => ae.metrics) }

/-- Association-list read, mirroring a Python dict lookup m[k]; the maps
below always have unique keys, built in dict insertion order. -/
def alookup {α : Type} : List (String × α) → String → Option α
  | [], _ => none
  | (k, v) :: rest, key => if k = key then some v else alookup rest key

/-- Association-list update of the first matching key, mirroring the Python
in-place mutations adjacency[s].append(t) and in_degree[t] += 1 (the key set
never changes). -/
def aupdate {α : Type} (f : α → α) : List (String × α) → String → List (String × α)
  | [], _ => []
  | (k, v) :: rest, key =>
    if k = key then (k, f v) :: rest else (k, v) :: aupdate f rest key

/-- Helper for first-occurrence key order of a Python dict comprehension over
possibly repeated keys. -/
def dedupKeysAux : List String → List String → List String
  | _, [] => []
  | seen, k :: ks =>
    if k ∈ seen then dedupKeysAux seen ks else k :: dedupKeysAux (k :: seen) ks

/-- Key list of a dict comprehension keyed by agent ids: first occurrence
wins the position (all comprehension values below are identical, so the
first-seen value is also faithful). -/
def dedupKeys (l : List String) : List String := dedupKeysAux [] l

/-- adjacency dict, node id to successor-id list. -/
abbrev Adj := List (String × List String)

/-- in_degree dict, node id to incoming-edge count (a Python int). -/
abbrev InDeg := List (String × Int)

/-- adjacency = \x7bagent.id: [] for agent in workflow.agents\x7d. -/
def initAdj (agents : List AgentNode) : Adj :=
  (dedupKeys (agents.map (fun a => a.id))).map (fun i => (i, []))

/-- in_degree = \x7bagent.id: 0 for agent in workflow.agents\x7d. -/
def initInDeg (agents : List AgentNode) : InDeg :=
  (dedupKeys (agents.map (fun a => a.id))).map (fun i => (i, 0))

/-- The for-edge loop of _build_execution_order. An edge whose source is not
an adjacency key makes adjacency[edge.source] raise KeyError; with a valid
source the append happens first and then in_degree[edge.target] may raise
KeyError. Either exception aborts the whole resolution. -/
def foldEdges : List WorkflowEdge → Adj → InDeg → Except String (Adj × InDeg)
  | [], adj, indeg => .ok (adj, indeg)
  | e :: es, adj, indeg =>
    match alookup adj e.source with
    | none => .error ("KeyError: " ++ e.source)
    | some _ =>
      let adj2 := aupdate (fun l => l ++ [e.target]) adj e.source
      match alookup indeg e.target with
      | none => .error ("KeyError: " ++ e.target)
      | some _ => foldEdges es adj2 (aupdate (fun v => v + 1) indeg e.target)

/-- One pass over adjacency[current]: decrement each neighbour's in-degree
and collect, in neighbour order, every neighbour whose in-degree reaches
exactly 0 (the queue.append calls of the loop body). A neighbour missing
from in_degree would have raised KeyError while the maps were built, so by
the time this runs every neighbour is a key; the none branch of the lookup
is therefore unreachable and conservatively pushes nothing. -/
def procNeighbors : InDeg → List String → InDeg × List String
  | d, [] => (d, [])
  | d, n :: ns =>
    let d1 := aupdate (fun v => v - 1) d n
    let rest := procNeighbors d1 ns
    if alookup d1 n = some 0 then (rest.1, n :: rest.2) else rest

/-- Number of keys whose in-degree is still positive; with the queue length
this bounds the remaining iterations of the while loop. -/
def posCount (d : InDeg) : Nat := d.countP (fun kv => decide (0 < kv.2))

/-- The while queue loop of the topological sort, returning dequeued ids in
order. The loop is written with explicit fuel so that it stays a structural
recursion; buildExecutionOrder supplies fuel strictly greater than
queue length + posCount, which is proved below (kahnLoop_drains) to drain
the queue, so the 0-fuel branch is never taken. -/
def kahnLoop (adj : Adj) : Nat → InDeg → List String → List String
  | 0, _, _ => []
  | _ + 1, _, [] => []
  | fuel + 1, d, cur :: rest =>
    let ns := (alookup adj cur).getD []
    let st := procNeighbors d ns
    cur :: kahnLoop adj fuel st.1 (rest ++ st.2)

/-- agent_map = \x7bagent.id: agent for agent in workflow.agents\x7d: on a
repeated id the last assignment wins, hence the search over the reversed
declaration list. -/
def agentMapFind (agents : List AgentNode) (i : String) : Option AgentNode :=
  agents.reverse.find? (fun a => a.id == i)

/-- OrchestrationEngine._build_execution_order. Dequeued ids are translated
to nodes through agent_map at the end rather than inside the loop, which is
observationally identical since agent_map is never mutated; every dequeued
id is an in_degree key and hence an agent id, so the filterMap drops nothing
(in Python, agent_map[current_id] cannot raise once the edge loop has
succeeded). -/
def buildExecutionOrder (w : Workflow) : Except String (List AgentNode) :=
  if w.edges = [] then
    .ok w.agents
  else
    match foldEdges w.edges (initAdj w.agents) (initInDeg w.agents) with
    | .error msg => .error msg
    | .ok (adjacency, in_degree) =>
      let start_agents := (in_degree.filter (fun kv => kv.2 == 0)).map Prod.fst
      if start_agents = [] then
        .ok w.agents
      else
        let ids := kahnLoop adjacency (start_agents.length + posCount in_degree + 1)
          in_degree start_agents
        .ok (ids.filterMap (agentMapFind w.agents))

/-- OrchestrationEngine.execute_workflow. The two Python exception handlers
appear as the two failure branches: a resolver exception is caught by the
top-level except and the partially built record is returned failed; a failed
agent result stops the loop and the record is returned failed with neither
results nor metrics set. Only the fully successful path sets results and
metrics. The function is total: no workflow content makes it raise. -/
def executeWorkflow (env : Env) (w : Workflow) (input_data : Value)
    (execution_id : String) (t0 : Nat) : Execution :=
  let execution : Execution :=
    { id := execution_id
      workflow_id := w.id
      status := ExecutionStatus.running
      started_at := t0
      completed_at := none
      input := toInputStr input_data
      results := none
      metrics := none
      agent_executions := [] }
  match buildExecutionOrder w with
  | .error _ =>
    { execution with
      status := ExecutionStatus.failed
      completed_at := some t0 }
  | .ok execution_order =>
    let run := runAgents env execution_order input_data t0
    match run.2.1 with
    | none =>
      { execution with
        agent_executions := run.1
        status := ExecutionStatus.failed
        completed_at := some run.2.2 }
    | some current_output =>
      { execution with
        agent_executions := run.1
        status := ExecutionStatus.completed
        completed_at := some run.2.2
        results := some current_output
        metrics := some (calculateMetrics run.1) }

/-- Input and start clock of the i-th node (0-indexed) of the sequential
pipe, assuming every earlier node completed: node 0 receives the original
workflow input, node i+1 receives the output of node i's result. -/
def pipeIn (env : Env) (nodes : List AgentNode) (input : Value) (t0 : Nat) :
    Nat → Value × Nat
  | 0 => (input, t0)
  | i + 1 =>
    let p := pipeIn env nodes input t0 i
    match nodes[i]? with
    | none => p
    | some node => ((executeAgent env node p.1 p.2).output, p.2 + env.dur node p.1)

/-- The result the i-th node of the pipe produces, assuming every earlier
node completed. -/
def pipeRes (env : Env) (nodes : List AgentNode) (input : Value) (t0 : Nat)
    (i : Nat) : Option ModelAgentExecResult :=
  match nodes[i]? with
  | none => none
  | some node =>
    some (executeAgent env node (pipeIn env nodes input t0 i).1
      (pipeIn env nodes input t0 i).2)

/-- Successor-id list of u as recorded by the edge loop: targets of the
edges whose source is u, in edge-declaration order. -/
def adjOf (edges : List WorkflowEdge) (u : String) : List String :=
  (edges.filter (fun e => e.source == u)).map (fun e => e.target)

/-- Number of edges pointing at s (the in-degree the edge loop computes). -/
def wInDeg (edges : List WorkflowEdge) (s : String) : Nat :=
  edges.countP (fun e => e.target == s)

/-- Total number of decrements applied to the in-degree of s after the nodes
in done have been dequeued. -/
def consumed (edges : List WorkflowEdge) (done : List String) (s : String) : Nat :=
  (done.map (fun u => (adjOf edges u).count s)).sum

/-- Number of edges pointing at s whose source lies in the node set S; for a
set S closed under taking some predecessor inside S (e.g. the nodes of a
cycle), this stays a lower bound on the in-degree of s throughout the
topological sort. -/
def edgesFromS (edges : List WorkflowEdge) (S : List String) (s : String) : Nat :=
  edges.countP (fun e => e.target == s && decide (e.source ∈ S))

/-- Test fixture: node a of registered type t. -/
def cA : AgentNode := { id := "a", type := "t", name := "A" }

/-- Test fixture: node b of registered type t. -/
def cB : AgentNode := { id := "b", type := "t", name := "B" }

/-- Test fixture: node c of registered type t. -/
def cC : AgentNode := { id := "c", type := "t", name := "C" }

/-- Test fixture: node u whose type mystery is not in any registry below. -/
def cU : AgentNode := { id := "u", type := "mystery", name := "U" }

/-- Test fixture: two-node chain a to b (the shape of spec Scenario B). -/
def cWab : Workflow :=
  { id := "w-ab"
    name := "ab"
    agents := [cA, cB]
    edges := [{ source := "a", target := "b" }] }

/-- Test fixture: chain a to b to u, where u has an unregistered type. -/
def cWabu : Workflow :=
  { id := "w-abu"
    name := "abu"
    agents := [cA, cB, cU]
    edges := [{ source := "a", target := "b" }, { source := "b", target := "u" }] }

/-- Test fixture: fan-out with edges declared [a to b, a to c]. -/
def cWfan1 : Workflow :=
  { id := "w-f1"
    name := "fan1"
    agents := [cA, cB, cC]
    edges := [{ source := "a", target := "b" }, { source := "a", target := "c" }] }

/-- Test fixture: the same fan-out with the edges declared in the other
order, [a to c, a to b]. -/
def cWfan2 : Workflow :=
  { id := "w-f2"
    name := "fan2"
    agents := [cA, cB, cC]
    edges := [{ source := "a", target := "c" }, { source := "a", target := "b" }] }

/-- Test fixture: single node a plus an edge whose source x is not a
declared node id. -/
def cWdangle : Workflow :=
  { id := "w-d"
    name := "dangle"
    agents := [cA]
    edges := [{ source := "x", target := "a" }] }

/-- Test fixture: two nodes and no edges. -/
def cWnoedges : Workflow :=
  { id := "w-n"
    name := "noedges"
    agents := [cA, cB]
    edges := [] }

/-- Test fixture: two nodes forming one cycle, so every node has an
incoming edge and the topological seed set is empty. -/
def cWallcyc : Workflow :=
  { id := "w-c"
    name := "allcyc"
    agents := [cA, cB]
    edges := [{ source := "a", target := "b" }, { source := "b", target := "a" }] }

/-- Test fixture: isolated node a next to the 2-cycle b to c to b. -/
def cWpartcyc : Workflow :=
  { id := "w-p"
    name := "partcyc"
    agents := [cA, cB, cC]
    edges := [{ source := "b", target := "c" }, { source := "c", target := "b" }] }

/-- Test fixture: environment where every agent of type t succeeds with
output out-<id>, 10 tokens, cost 1, duration 5. -/
def cEnvOK : Env :=
  { registry := ["t"]
    behave := fun n _ =>
      .ret { success := true, output := .vstr ("out-" ++ n.id), tokens_used := 10, cost := 1 }
    dur := fun _ _ => 5 }

/-- Test fixture: like cEnvOK except agent b reports success false with
error message rate limited. -/
def cEnvFailB : Env :=
  { registry := ["t"]
    behave := fun n _ =>
      if n.id = "b" then
        .ret { success := false, output := .vstr "boom", error := some "rate limited" }
      else
        .ret { success := true, output := .vstr ("out-" ++ n.id), tokens_used := 10, cost := 1 }
    dur := fun _ _ => 5 }

/-- Test fixture: like cEnvOK except agent b raises an exception whose
message is boom. -/
def cEnvExnB : Env :=
  { registry := ["t"]
    behave := fun n _ =>
      if n.id = "b" then .exn "boom"
      else .ret { success := true, output := .vstr ("out-" ++ n.id), tokens_used := 10, cost := 1 }
    dur := fun _ _ => 5 }


theorem alookup_aupdate_self {α : Type} (f : α → α) (m : List (String × α)) (k : String) :
    alookup (aupdate f m k) k = (alookup m k).map f := by
  induction m with
  | nil => simp [alookup, aupdate]
  | cons kv rest ih =>
    obtain ⟨k', v⟩ := kv
    by_cases h : k' = k <;> simp [alookup, aupdate, h, ih]

theorem alookup_aupdate_ne {α : Type} (f : α → α) (m : List (String × α)) (k k' : String)
    (h : k' ≠ k) : alookup (aupdate f m k) k' = alookup m k' := by
  induction m with
  | nil => simp [alookup, aupdate]
  | cons kv rest ih =>
    obtain ⟨k0, v⟩ := kv
    by_cases h0 : k0 = k
    · subst h0
      simp [alookup, aupdate, Ne.symm h]
    · by_cases h1 : k0 = k'
      · subst h1
        simp [alookup, aupdate, h0]
      · simp [alookup, aupdate, h0, h1, ih]

theorem keys_aupdate {α : Type} (f : α → α) (m : List (String × α)) (k : String) :
    (aupdate f m k).map Prod.fst = m.map Prod.fst := by
  induction m with
  | nil => simp [aupdate]
  | cons kv rest ih =>
    obtain ⟨k0, v⟩ := kv
    by_cases h : k0 = k <;> simp [aupdate, h, ih]

theorem alookup_isSome_iff_mem {α : Type} (m : List (String × α)) (k : String) :
    (alookup m k).isSome = true ↔ k ∈ m.map Prod.fst := by
  induction m with
  | nil => simp [alookup]
  | cons kv rest ih =>
    obtain ⟨k0, v⟩ := kv
    by_cases h : k0 = k
    · subst h
      simp [alookup]
    · simp [alookup, h, ih, Ne.symm h]

theorem alookup_some_mem {α : Type} {m : List (String × α)} {k : String} {v : α}
    (h : alookup m k = some v) : (k, v) ∈ m := by
  induction m with
  | nil => simp [alookup] at h
  | cons kv rest ih =>
    obtain ⟨k0, v0⟩ := kv
    by_cases h0 : k0 = k
    · subst h0
      simp [alookup] at h
      simp [h]
    · simp only [alookup, if_neg h0] at h
      exact List.mem_cons_of_mem _ (ih h)

theorem alookup_of_mem_nodup {α : Type} {m : List (String × α)} {k : String} {v : α}
    (hnd : (m.map Prod.fst).Nodup) (h : (k, v) ∈ m) : alookup m k = some v := by
  induction m with
  | nil => simp at h
  | cons kv rest ih =>
    obtain ⟨k0, v0⟩ := kv
    have hnd' : (∀ x : α, (k0, x) ∉ rest) ∧ (rest.map Prod.fst).Nodup := by
      simpa using hnd
    rcases List.mem_cons.mp h with h1 | h1
    · rw [Prod.mk.injEq] at h1
      obtain ⟨rfl, rfl⟩ := h1
      simp [alookup]
    · have hk : ¬ k0 = k := by
        rintro rfl
        exact hnd'.1 v h1
      simp only [alookup, if_neg hk]
      exact ih hnd'.2 h1

theorem alookup_map_const {α : Type} (l : List String) (c : α) (k : String) :
    alookup (l.map (fun i => (i, c))) k = if k ∈ l then some c else none := by
  induction l with
  | nil => simp [alookup]
  | cons i rest ih =>
    by_cases h : i = k
    · subst h
      simp [alookup]
    · simp [alookup, h, ih, Ne.symm h]

theorem mem_dedupKeysAux (seen l : List String) (k : String) :
    k ∈ dedupKeysAux seen l ↔ k ∈ l ∧ k ∉ seen := by
  induction l generalizing seen with
  | nil => simp [dedupKeysAux]
  | cons x rest ih =>
    by_cases h : x ∈ seen
    · simp only [dedupKeysAux, if_pos h, ih, List.mem_cons]
      aesop
    · simp only [dedupKeysAux, if_neg h, List.mem_cons, ih, List.mem_cons]
      by_cases hx : k = x <;> aesop

theorem nodup_dedupKeysAux (seen l : List String) : (dedupKeysAux seen l).Nodup := by
  induction l generalizing seen with
  | nil => simp [dedupKeysAux]
  | cons x rest ih =>
    by_cases h : x ∈ seen
    · simpa [dedupKeysAux, if_pos h] using ih seen
    · simp only [dedupKeysAux, if_neg h]
      refine List.nodup_cons.mpr ⟨?_, ih _⟩
      intro hc
      exact ((mem_dedupKeysAux _ _ _).mp hc).2 (List.mem_cons_self _ _)

theorem mem_dedupKeys (l : List String) (k : String) : k ∈ dedupKeys l ↔ k ∈ l := by
  simp [dedupKeys, mem_dedupKeysAux]

theorem nodup_dedupKeys (l : List String) : (dedupKeys l).Nodup := nodup_dedupKeysAux _ _

theorem filterMap_length_of_isSome {α β : Type} (f : α → Option β) (l : List α)
    (h : ∀ x ∈ l, (f x).isSome = true) : (l.filterMap f).length = l.length := by
  induction l with
  | nil => simp
  | cons x rest ih =>
    obtain ⟨y, hy⟩ := Option.isSome_iff_exists.mp (h x (List.mem_cons_self _ _))
    simp [List.filterMap_cons, hy, ih fun z hz => h z (List.mem_cons_of_mem _ hz)]

theorem adjOf_nil (k : String) : adjOf [] k = [] := rfl

theorem wInDeg_nil (k : String) : wInDeg [] k = 0 := rfl

theorem adjOf_cons (e : WorkflowEdge) (es : List WorkflowEdge) (k : String) :
    adjOf (e :: es) k = if e.source == k then e.target :: adjOf es k else adjOf es k := by
  by_cases h : e.source == k <;> simp [adjOf, List.filter_cons, h]

theorem wInDeg_cons (e : WorkflowEdge) (es : List WorkflowEdge) (k : String) :
    wInDeg (e :: es) k = (if e.target == k then 1 else 0) + wInDeg es k := by
  by_cases h : e.target == k <;> simp [wInDeg, List.countP_cons, h] <;> omega

theorem foldEdges_ok (es : List WorkflowEdge) :
    ∀ (adj : Adj) (indeg : InDeg),
    (∀ e ∈ es, e.source ∈ adj.map Prod.fst ∧ e.target ∈ indeg.map Prod.fst) →
    ∃ adj2 indeg2, foldEdges es adj indeg = .ok (adj2, indeg2) ∧
      adj2.map Prod.fst = adj.map Prod.fst ∧
      indeg2.map Prod.fst = indeg.map Prod.fst ∧
      (∀ k, alookup adj2 k = (alookup adj k).map (fun l => l ++ adjOf es k)) ∧
      (∀ k, alookup indeg2 k = (alookup indeg k).map (fun v => v + (wInDeg es k : Int))) := by
  induction es with
  | nil =>
    intro adj indeg _
    refine ⟨adj, indeg, rfl, rfl, rfl, ?_, ?_⟩
    · intro k
      cases alookup adj k <;> simp [adjOf_nil]
    · intro k
      cases alookup indeg k <;> simp [wInDeg_nil]
  | cons e es ih =>
    intro adj indeg hvalid
    have hsrc : e.source ∈ adj.map Prod.fst := (hvalid e (List.mem_cons_self _ _)).1
    have htgt : e.target ∈ indeg.map Prod.fst := (hvalid e (List.mem_cons_self _ _)).2
    obtain ⟨l0, hs⟩ := Option.isSome_iff_exists.mp ((alookup_isSome_iff_mem _ _).mpr hsrc)
    obtain ⟨v0, ht⟩ := Option.isSome_iff_exists.mp ((alookup_isSome_iff_mem _ _).mpr htgt)
    have hvalid1 : ∀ e2 ∈ es,
        e2.source ∈ (aupdate (fun l => l ++ [e.target]) adj e.source).map Prod.fst ∧
        e2.target ∈ (aupdate (fun v => v + 1) indeg e.target).map Prod.fst := by
      intro e2 he2
      rw [keys_aupdate, keys_aupdate]
      exact hvalid e2 (List.mem_cons_of_mem _ he2)
    obtain ⟨adj2, indeg2, hfold, hka, hki, hla, hli⟩ := ih _ _ hvalid1
    refine ⟨adj2, indeg2, ?_, ?_, ?_, ?_, ?_⟩
    · simp [foldEdges, hs, ht, hfold]
    · rw [hka, keys_aupdate]
    · rw [hki, keys_aupdate]
    · intro k
      rw [hla k]
      by_cases hk : e.source = k
      · subst hk
        rw [alookup_aupdate_self]
        cases alookup adj e.source <;> simp [adjOf_cons]
      · rw [alookup_aupdate_ne _ _ _ _ (Ne.symm hk)]
        cases alookup adj k <;> simp [adjOf_cons, hk]
    · intro k
      rw [hli k]
      by_cases hk : e.target = k
      · subst hk
        rw [alookup_aupdate_self]
        cases alookup indeg e.target <;> simp [wInDeg_cons] <;> push_cast <;> ring
      · rw [alookup_aupdate_ne _ _ _ _ (Ne.symm hk)]
        cases alookup indeg k <;> simp [wInDeg_cons, hk]

theorem foldEdges_error (es : List WorkflowEdge) :
    ∀ (adj : Adj) (indeg : InDeg),
    (∃ e ∈ es, e.source ∉ adj.map Prod.fst ∨ e.target ∉ indeg.map Prod.fst) →
    ∃ msg, foldEdges es adj indeg = .error msg := by
  induction es with
  | nil =>
    rintro adj indeg ⟨e, he, _⟩
    simp at he
  | cons e es ih =>
    rintro adj indeg ⟨e0, he0, hbad⟩
    cases hs : alookup adj e.source with
    | none => exact ⟨"KeyError: " ++ e.source, by simp [foldEdges, hs]⟩
    | some l0 =>
      cases ht : alookup indeg e.target with
      | none => exact ⟨"KeyError: " ++ e.target, by simp [foldEdges, hs, ht]⟩
      | some v0 =>
        have hsrc : e.source ∈ adj.map Prod.fst :=
          (alookup_isSome_iff_mem _ _).mp (by simp [hs])
        have htgt : e.target ∈ indeg.map Prod.fst :=
          (alookup_isSome_iff_mem _ _).mp (by simp [ht])
        have he0' : e0 ∈ es := by
          rcases List.mem_cons.mp he0 with h | h
          · subst h
            rcases hbad with h | h
            · exact absurd hsrc h
            · exact absurd htgt h
          · exact h
        obtain ⟨msg, hmsg⟩ := ih (aupdate (fun l => l ++ [e.target]) adj e.source)
          (aupdate (fun v => v + 1) indeg e.target)
          ⟨e0, he0', by simpa [keys_aupdate] using hbad⟩
        exact ⟨msg, by simp [foldEdges, hs, ht, hmsg]⟩

theorem procNeighbors_cons_fst (d : InDeg) (n : String) (ns : List String) :
    (procNeighbors d (n :: ns)).1 = (procNeighbors (aupdate (fun v => v - 1) d n) ns).1 := by
  simp only [procNeighbors]
  split <;> rfl

theorem procNeighbors_alookup (ns : List String) : ∀ (d : InDeg) (k : String),
    alookup (procNeighbors d ns).1 k = (alookup d k).map (fun v => v - (ns.count k : Int)) := by
  induction ns with
  | nil =>
    intro d k
    cases h : alookup d k <;> simp [procNeighbors, h]
  | cons n ns ih =>
    intro d k
    rw [procNeighbors_cons_fst, ih]
    by_cases hk : n = k
    · subst hk
      rw [alookup_aupdate_self]
      cases alookup d n <;> simp [List.count_cons] <;> push_cast <;> ring
    · rw [alookup_aupdate_ne _ _ _ _ (Ne.symm hk)]
      cases alookup d k <;> simp [List.count_cons, Ne.symm hk]

theorem procNeighbors_keys (ns : List String) : ∀ d : InDeg,
    (procNeighbors d ns).1.map Prod.fst = d.map Prod.fst := by
  induction ns with
  | nil =>
    intro d
    simp [procNeighbors]
  | cons n ns ih =>
    intro d
    rw [procNeighbors_cons_fst, ih, keys_aupdate]

theorem posCount_aupdate_le (d : InDeg) (n : String) :
    posCount (aupdate (fun v => v - 1) d n) ≤ posCount d := by
  induction d with
  | nil => simp [aupdate]
  | cons kv rest ih =>
    obtain ⟨k, v⟩ := kv
    by_cases h : k = n
    · have hred : aupdate (fun v => v - 1) ((k, v) :: rest) n = (k, v - 1) :: rest := by
        simp [aupdate, h]
      rw [hred]
      simp only [posCount, List.countP_cons]
      have h1 : (if (decide ((0:Int) < v - 1)) = true then 1 else 0) ≤
          (if (decide ((0:Int) < v)) = true then 1 else 0) := by
        by_cases hv : (0:Int) < v - 1
        · have hv2 : (0:Int) < v := by omega
          simp [hv, hv2]
        · simp [hv]
      omega
    · have hred : aupdate (fun v => v - 1) ((k, v) :: rest) n
          = (k, v) :: aupdate (fun v => v - 1) rest n := by
        simp [aupdate, h]
      rw [hred]
      simp only [posCount, List.countP_cons]
      simp only [posCount] at ih
      omega

theorem posCount_aupdate_zero (d : InDeg) (n : String)
    (h : alookup (aupdate (fun v => v - 1) d n) n = some 0) :
    posCount (aupdate (fun v => v - 1) d n) + 1 = posCount d := by
  induction d with
  | nil => simp [aupdate, alookup] at h
  | cons kv rest ih =>
    obtain ⟨k, v⟩ := kv
    by_cases hk : k = n
    · have hred : aupdate (fun v => v - 1) ((k, v) :: rest) n = (k, v - 1) :: rest := by
        simp [aupdate, hk]
      rw [hred] at h ⊢
      have hv : v - 1 = 0 := by simpa [alookup, hk] using h
      have hv1 : v = 1 := by omega
      subst hv1
      simp [posCount, List.countP_cons]
    · have hred : aupdate (fun v => v - 1) ((k, v) :: rest) n
          = (k, v) :: aupdate (fun v => v - 1) rest n := by
        simp [aupdate, hk]
      rw [hred] at h ⊢
      have h2 : alookup (aupdate (fun v => v - 1) rest n) n = some 0 := by
        simpa [alookup, hk] using h
      simp only [posCount, List.countP_cons]
      have h3 := ih h2
      simp only [posCount] at h3
      omega

theorem procNeighbors_posCount (ns : List String) : ∀ d : InDeg,
    (procNeighbors d ns).2.length + posCount (procNeighbors d ns).1 ≤ posCount d := by
  induction ns with
  | nil =>
    intro d
    simp [procNeighbors]
  | cons n ns ih =>
    intro d
    by_cases hp : alookup (aupdate (fun v => v - 1) d n) n = some 0
    · have hres : procNeighbors d (n :: ns) =
          ((procNeighbors (aupdate (fun v => v - 1) d n) ns).1,
           n :: (procNeighbors (aupdate (fun v => v - 1) d n) ns).2) := by
        simp only [procNeighbors, if_pos hp]
      rw [hres]
      have h1 := ih (aupdate (fun v => v - 1) d n)
      have h2 := posCount_aupdate_zero d n hp
      simp only [List.length_cons]
      omega
    · have hres : procNeighbors d (n :: ns) =
          procNeighbors (aupdate (fun v => v - 1) d n) ns := by
        simp only [procNeighbors, if_neg hp]
      rw [hres]
      have h1 := ih (aupdate (fun v => v - 1) d n)
      have h2 := posCount_aupdate_le d n
      omega

theorem procNeighbors_pushed (ns : List String) : ∀ (d : InDeg) (bad : List String),
    (∀ k ∈ bad, ∃ v, alookup d k = some v ∧ v ≤ 0) →
    (procNeighbors d ns).2.Nodup ∧
      ∀ k ∈ (procNeighbors d ns).2,
        k ∉ bad ∧ ∃ v, alookup (procNeighbors d ns).1 k = some v ∧ v ≤ 0 := by
  induction ns with
  | nil =>
    intro d bad _
    simp [procNeighbors]
  | cons n ns ih =>
    intro d bad hbad
    have hbad1 : ∀ k ∈ bad, ∃ v, alookup (aupdate (fun v => v - 1) d n) k = some v ∧ v ≤ 0 := by
      intro k hk
      obtain ⟨v, hv, hv0⟩ := hbad k hk
      by_cases hkn : n = k
      · subst hkn
        refine ⟨v - 1, ?_, by omega⟩
        rw [alookup_aupdate_self, hv]
        rfl
      · refine ⟨v, ?_, hv0⟩
        rw [alookup_aupdate_ne _ _ _ _ (Ne.symm hkn)]
        exact hv
    by_cases hp : alookup (aupdate (fun v => v - 1) d n) n = some 0
    · have hbad2 : ∀ k ∈ n :: bad,
          ∃ v, alookup (aupdate (fun v => v - 1) d n) k = some v ∧ v ≤ 0 := by
        intro k hk
        rcases List.mem_cons.mp hk with hk | hk
        · subst hk
          exact ⟨0, hp, le_refl 0⟩
        · exact hbad1 k hk
      obtain ⟨hnd, hmem⟩ := ih (aupdate (fun v => v - 1) d n) (n :: bad) hbad2
      have hres : procNeighbors d (n :: ns) =
          ((procNeighbors (aupdate (fun v => v - 1) d n) ns).1,
           n :: (procNeighbors (aupdate (fun v => v - 1) d n) ns).2) := by
        simp only [procNeighbors, if_pos hp]
      rw [hres]
      constructor
      · refine List.nodup_cons.mpr ⟨?_, hnd⟩
        intro hc
        exact (hmem n hc).1 (List.mem_cons_self _ _)
      · intro k hk
        rcases List.mem_cons.mp hk with hk | hk
        · subst hk
          constructor
          · intro hkbad
            obtain ⟨v, hv, hv0⟩ := hbad k hkbad
            have hlk : alookup (aupdate (fun x => x - 1) d k) k = some (v - 1) := by
              rw [alookup_aupdate_self, hv]
              rfl
            rw [hp] at hlk
            have : v - 1 = 0 := by simpa using hlk.symm
            omega
          · refine ⟨0 - (ns.count k : Int), ?_, by omega⟩
            rw [procNeighbors_alookup, hp]
            rfl
        · obtain ⟨hk1, hk2⟩ := hmem k hk
          exact ⟨fun hc => hk1 (List.mem_cons_of_mem _ hc), hk2⟩
    · have hres : procNeighbors d (n :: ns) =
          procNeighbors (aupdate (fun v => v - 1) d n) ns := by
        simp only [procNeighbors, if_neg hp]
      rw [hres]
      exact ih (aupdate (fun v => v - 1) d n) bad hbad1

theorem procNeighbors_not_pushed (ns : List String) : ∀ (d : InDeg) (s : String) (v : Int),
    alookup d s = some v → 1 ≤ v - (ns.count s : Int) →
    s ∉ (procNeighbors d ns).2 := by
  induction ns with
  | nil =>
    intro d s v _ _
    simp [procNeighbors]
  | cons n ns ih =>
    intro d s v hv hge
    by_cases hns : n = s
    · subst hns
      have hv1 : alookup (aupdate (fun x => x - 1) d n) n = some (v - 1) := by
        rw [alookup_aupdate_self, hv]
        rfl
      have hcount : (n :: ns).count n = ns.count n + 1 := by
        simp [List.count_cons]
      have hge1 : 1 ≤ (v - 1) - (ns.count n : Int) := by
        rw [hcount] at hge
        push_cast at hge
        omega
      have hrec := ih (aupdate (fun x => x - 1) d n) n (v - 1) hv1 hge1
      by_cases hp : alookup (aupdate (fun x => x - 1) d n) n = some 0
      · rw [hv1] at hp
        have : v - 1 = 0 := by simpa using hp
        omega
      · have hres : procNeighbors d (n :: ns) =
            procNeighbors (aupdate (fun x => x - 1) d n) ns := by
          simp only [procNeighbors, if_neg hp]
        rw [hres]
        exact hrec
    · have hv1 : alookup (aupdate (fun x => x - 1) d n) s = some v := by
        rw [alookup_aupdate_ne _ _ _ _ fun h => hns h.symm]
        exact hv
      have hsn : ¬ s = n := fun h => hns h.symm
      have hcount : (n :: ns).count s = ns.count s := by
        simp [List.count_cons, hsn, hns]
      have hge1 : 1 ≤ v - (ns.count s : Int) := by
        rw [hcount] at hge
        exact hge
      have hrec := ih (aupdate (fun x => x - 1) d n) s v hv1 hge1
      by_cases hp : alookup (aupdate (fun x => x - 1) d n) n = some 0
      · have hres : procNeighbors d (n :: ns) =
            ((procNeighbors (aupdate (fun x => x - 1) d n) ns).1,
             n :: (procNeighbors (aupdate (fun x => x - 1) d n) ns).2) := by
          simp only [procNeighbors, if_pos hp]
        rw [hres]
        intro hc
        rcases List.mem_cons.mp hc with hc | hc
        · exact hns hc.symm
        · exact hrec hc
      · have hres : procNeighbors d (n :: ns) =
            procNeighbors (aupdate (fun x => x - 1) d n) ns := by
          simp only [procNeighbors, if_neg hp]
        rw [hres]
        exact hrec

theorem countP_disjoint_add {α : Type} (l : List α) (p q : α → Bool)
    (h : ∀ x ∈ l, ¬(p x = true ∧ q x = true)) :
    l.countP p + l.countP q = l.countP (fun x => p x || q x) := by
  induction l with
  | nil => simp
  | cons x rest ih =>
    have hx := h x (List.mem_cons_self _ _)
    have ih2 := ih fun z hz => h z (List.mem_cons_of_mem _ hz)
    by_cases hp : p x = true
    · by_cases hq : q x = true
      · exact absurd ⟨hp, hq⟩ hx
      · simp only [List.countP_cons]
        simp [hp, hq]
        omega
    · by_cases hq : q x = true <;>
        · simp only [List.countP_cons]
          simp [hp, hq]
          omega

theorem count_adjOf (edges : List WorkflowEdge) (u s : String) :
    (adjOf edges u).count s
      = edges.countP (fun e => e.source == u && e.target == s) := by
  rw [adjOf, List.count_eq_countP, List.countP_map, List.countP_filter]
  refine List.countP_congr fun e _ => ?_
  simp [Function.comp, Bool.and_comm]

theorem consumed_cons (edges : List WorkflowEdge) (u : String) (done : List String)
    (s : String) :
    consumed edges (u :: done) s = (adjOf edges u).count s + consumed edges done s := by
  simp [consumed]

theorem consumed_append_one (edges : List WorkflowEdge) (done : List String) (u s : String) :
    consumed edges (done ++ [u]) s = consumed edges done s + (adjOf edges u).count s := by
  simp [consumed]

theorem consumed_eq_countP (edges : List WorkflowEdge) (s : String) :
    ∀ (done : List String), done.Nodup →
    consumed edges done s
      = edges.countP (fun e => decide (e.source ∈ done) && e.target == s) := by
  intro done
  induction done with
  | nil =>
    intro _
    simp [consumed]
  | cons u done ih =>
    intro hnd
    obtain ⟨hu, hnd2⟩ := List.nodup_cons.mp hnd
    rw [consumed_cons, count_adjOf, ih hnd2]
    rw [countP_disjoint_add]
    · refine List.countP_congr fun e _ => ?_
      by_cases h1 : e.source = u <;> by_cases h2 : e.source ∈ done <;>
        simp [h1, h2, List.mem_cons]
    · rintro e _ ⟨h1, h2⟩
      simp only [Bool.and_eq_true, beq_iff_eq, decide_eq_true_eq] at h1 h2
      exact hu (h1.1 ▸ h2.1)

theorem consumed_add_edgesFromS_le (edges : List WorkflowEdge) (S : List String)
    (s : String) (done : List String) (hnd : done.Nodup)
    (hdisj : ∀ u ∈ done, u ∉ S) :
    consumed edges done s + edgesFromS edges S s ≤ wInDeg edges s := by
  rw [consumed_eq_countP edges s done hnd, edgesFromS]
  rw [countP_disjoint_add]
  · rw [wInDeg]
    refine List.countP_mono_left fun e _ h => ?_
    simp only [Bool.or_eq_true, Bool.and_eq_true] at h
    rcases h with h | h
    · exact h.2
    · exact h.1
  · rintro e _ ⟨h1, h2⟩
    simp only [Bool.and_eq_true, beq_iff_eq, decide_eq_true_eq] at h1 h2
    exact hdisj e.source h1.1 h2.2

theorem edgesFromS_pos (edges : List WorkflowEdge) (S : List String) (s : String)
    (h : ∃ e ∈ edges, e.target = s ∧ e.source ∈ S) : 1 ≤ edgesFromS edges S s := by
  obtain ⟨e, he, ht, hs⟩ := h
  have hpos : 0 < edges.countP (fun e => e.target == s && decide (e.source ∈ S)) :=
    List.countP_pos_iff.mpr ⟨e, he, by simp [ht, hs]⟩
  simpa [edgesFromS] using hpos

theorem kahnLoop_excludes (edges : List WorkflowEdge) (adj : Adj) (S : List String)
    (hScyc : ∀ s ∈ S, ∃ e ∈ edges, e.target = s ∧ e.source ∈ S) :
    ∀ (fuel : Nat) (d : InDeg) (q done : List String),
    q.length + posCount d < fuel →
    (∀ k ∈ d.map Prod.fst, alookup adj k = some (adjOf edges k)) →
    (∀ k ∈ q, k ∈ d.map Prod.fst) →
    (q ++ done).Nodup →
    (∀ k ∈ q ++ done, ∃ v, alookup d k = some v ∧ v ≤ 0) →
    (∀ k ∈ done, k ∉ S) →
    (∀ s ∈ S, alookup d s
      = some ((wInDeg edges s : Int) - (consumed edges done s : Int))) →
    (∀ s ∈ S, s ∉ kahnLoop adj fuel d q) ∧
      (kahnLoop adj fuel d q).Nodup ∧
      (∀ k ∈ kahnLoop adj fuel d q, k ∈ d.map Prod.fst) ∧
      (∀ k ∈ kahnLoop adj fuel d q, k ∉ done) := by
  intro fuel
  induction fuel with
  | zero =>
    intro d q done hf
    omega
  | succ fuel ih =>
    intro d q done hf hadj hq hnd hneg hdS hSval
    cases q with
    | nil =>
      simp [kahnLoop]
    | cons cur rest =>
      have hcurkey : cur ∈ d.map Prod.fst := hq cur (List.mem_cons_self _ _)
      have hunf : kahnLoop adj (fuel + 1) d (cur :: rest)
          = cur :: kahnLoop adj fuel (procNeighbors d (adjOf edges cur)).1
              (rest ++ (procNeighbors d (adjOf edges cur)).2) := by
        simp only [kahnLoop, hadj cur hcurkey, Option.getD_some]
      rw [List.cons_append] at hnd
      obtain ⟨hcurnot, hrdnd⟩ := List.nodup_cons.mp hnd
      obtain ⟨hrestnd, hdonend, hrddisj⟩ := List.nodup_append.mp hrdnd
      have hcurdone : cur ∉ done := fun hc => hcurnot (List.mem_append_right _ hc)
      have hcurrest : cur ∉ rest := fun hc => hcurnot (List.mem_append_left _ hc)
      have hcurS : cur ∉ S := by
        intro hs
        obtain ⟨v, hv, hv0⟩ := hneg cur (List.mem_append_left _ (List.mem_cons_self _ _))
        have hv2 := hSval cur hs
        rw [hv] at hv2
        have hveq : v = (wInDeg edges cur : Int) - (consumed edges done cur : Int) := by
          simpa using hv2
        have hbound := consumed_add_edgesFromS_le edges S cur done hdonend hdS
        have hpos := edgesFromS_pos edges S cur (hScyc cur hs)
        omega
      have hdone1nd : (done ++ [cur]).Nodup := by
        rw [List.nodup_append]
        exact ⟨hdonend, List.nodup_singleton _,
          fun a ha hb => hcurdone ((List.mem_singleton.mp hb) ▸ ha)⟩
      have hdone1S : ∀ u ∈ done ++ [cur], u ∉ S := by
        intro u hu
        rcases List.mem_append.mp hu with hu | hu
        · exact hdS u hu
        · exact (List.mem_singleton.mp hu) ▸ hcurS
      have hSval2 : ∀ s ∈ S, alookup (procNeighbors d (adjOf edges cur)).1 s
          = some ((wInDeg edges s : Int) - (consumed edges (done ++ [cur]) s : Int)) := by
        intro s hs
        rw [procNeighbors_alookup, hSval s hs, consumed_append_one]
        have hc : ((wInDeg edges s : Int) - (consumed edges done s : Int))
            - ((adjOf edges cur).count s : Int)
            = (wInDeg edges s : Int)
              - ((consumed edges done s + (adjOf edges cur).count s : Nat) : Int) := by
          push_cast
          ring
        simp [hc]
      have hSnotpushed : ∀ s ∈ S, s ∉ (procNeighbors d (adjOf edges cur)).2 := by
        intro s hs
        have hbound := consumed_add_edgesFromS_le edges S s (done ++ [cur]) hdone1nd hdone1S
        have hpos := edgesFromS_pos edges S s (hScyc s hs)
        have hcnt : consumed edges (done ++ [cur]) s
            = consumed edges done s + (adjOf edges cur).count s := consumed_append_one _ _ _ _
        refine procNeighbors_not_pushed _ d s
          ((wInDeg edges s : Int) - (consumed edges done s : Int)) (hSval s hs) ?_
        omega
      obtain ⟨hpushnd, hpushmem⟩ := procNeighbors_pushed (adjOf edges cur) d
        ((cur :: rest) ++ done) hneg
      have hposle := procNeighbors_posCount (adjOf edges cur) d
      have hf2 : (rest ++ (procNeighbors d (adjOf edges cur)).2).length
          + posCount (procNeighbors d (adjOf edges cur)).1 < fuel := by
        rw [List.length_append]
        simp only [List.length_cons] at hf
        omega
      have hkeys2 : (procNeighbors d (adjOf edges cur)).1.map Prod.fst = d.map Prod.fst :=
        procNeighbors_keys _ _
      have hadj2 : ∀ k ∈ (procNeighbors d (adjOf edges cur)).1.map Prod.fst,
          alookup adj k = some (adjOf edges k) := by
        rw [hkeys2]
        exact hadj
      have hq2 : ∀ k ∈ rest ++ (procNeighbors d (adjOf edges cur)).2,
          k ∈ (procNeighbors d (adjOf edges cur)).1.map Prod.fst := by
        intro k hk
        rcases List.mem_append.mp hk with hk | hk
        · rw [hkeys2]
          exact hq k (List.mem_cons_of_mem _ hk)
        · obtain ⟨_, v, hv, _⟩ := hpushmem k hk
          exact (alookup_isSome_iff_mem _ _).mp (by simp [hv])
      have hnd2 : ((rest ++ (procNeighbors d (adjOf edges cur)).2) ++ (done ++ [cur])).Nodup := by
        rw [List.nodup_append]
        refine ⟨?_, hdone1nd, ?_⟩
        · rw [List.nodup_append]
          refine ⟨hrestnd, hpushnd, ?_⟩
          intro a ha hb
          exact (hpushmem a hb).1 (List.mem_append_left _ (List.mem_cons_of_mem _ ha))
        · intro a ha hb
          rcases List.mem_append.mp ha with ha | ha
          · rcases List.mem_append.mp hb with hb | hb
            · exact hrddisj ha hb
            · exact hcurrest ((List.mem_singleton.mp hb) ▸ ha)
          · rcases List.mem_append.mp hb with hb | hb
            · exact (hpushmem a ha).1 (List.mem_append_right _ hb)
            · exact (hpushmem a ha).1
                (List.mem_append_left _ ((List.mem_singleton.mp hb) ▸ (List.mem_cons_self _ _)))
      have hneg2 : ∀ k ∈ (rest ++ (procNeighbors d (adjOf edges cur)).2) ++ (done ++ [cur]),
          ∃ v, alookup (procNeighbors d (adjOf edges cur)).1 k = some v ∧ v ≤ 0 := by
        intro k hk
        have hold : k ∈ (cur :: rest) ++ done ∨ k ∈ (procNeighbors d (adjOf edges cur)).2 := by
          rcases List.mem_append.mp hk with hk | hk
          · rcases List.mem_append.mp hk with hk | hk
            · exact Or.inl (List.mem_append_left _ (List.mem_cons_of_mem _ hk))
            · exact Or.inr hk
          · rcases List.mem_append.mp hk with hk | hk
            · exact Or.inl (List.mem_append_right _ hk)
            · exact Or.inl
                (List.mem_append_left _ ((List.mem_singleton.mp hk) ▸ (List.mem_cons_self _ _)))
        rcases hold with hk2 | hk2
        · obtain ⟨v, hv, hv0⟩ := hneg k hk2
          refine ⟨v - (((adjOf edges cur).count k : Nat) : Int), ?_, by omega⟩
          rw [procNeighbors_alookup, hv]
          rfl
        · exact (hpushmem k hk2).2
      obtain ⟨ihS, ihnd, ihkeys, ihdone⟩ := ih (procNeighbors d (adjOf edges cur)).1
        (rest ++ (procNeighbors d (adjOf edges cur)).2) (done ++ [cur])
        hf2 hadj2 hq2 hnd2 hneg2 hdone1S hSval2
      rw [hunf]
      refine ⟨?_, ?_, ?_, ?_⟩
      · intro s hs hc
        rcases List.mem_cons.mp hc with hc | hc
        · exact hcurS (hc ▸ hs)
        · exact ihS s hs hc
      · refine List.nodup_cons.mpr ⟨?_, ihnd⟩
        intro hc
        exact ihdone cur hc (List.mem_append_right _ (List.mem_singleton.mpr rfl))
      · intro k hk
        rcases List.mem_cons.mp hk with hk | hk
        · exact hk ▸ hcurkey
        · have := ihkeys k hk
          rwa [hkeys2] at this
      · intro k hk
        rcases List.mem_cons.mp hk with hk | hk
        · exact hk ▸ hcurdone
        · exact fun hc => ihdone k hk (List.mem_append_left _ hc)

theorem initInDeg_alookup (agents : List AgentNode) (k : String) :
    alookup (initInDeg agents) k
      = if k ∈ dedupKeys (agents.map (fun a => a.id)) then some 0 else none := by
  simp [initInDeg, alookup_map_const]

theorem initAdj_alookup (agents : List AgentNode) (k : String) :
    alookup (initAdj agents) k
      = if k ∈ dedupKeys (agents.map (fun a => a.id)) then some [] else none := by
  simp [initAdj, alookup_map_const]

theorem initInDeg_keys (agents : List AgentNode) :
    (initInDeg agents).map Prod.fst = dedupKeys (agents.map (fun a => a.id)) := by
  rw [initInDeg, List.map_map]
  show List.map (fun i => i) (dedupKeys (agents.map (fun a => a.id)))
      = dedupKeys (agents.map (fun a => a.id))
  simp

theorem initAdj_keys (agents : List AgentNode) :
    (initAdj agents).map Prod.fst = dedupKeys (agents.map (fun a => a.id)) := by
  rw [initAdj, List.map_map]
  show List.map (fun i => i) (dedupKeys (agents.map (fun a => a.id)))
      = dedupKeys (agents.map (fun a => a.id))
  simp

theorem valid_keys (w : Workflow)
    (hvalid : ∀ e ∈ w.edges, e.source ∈ w.agents.map (fun a => a.id)
      ∧ e.target ∈ w.agents.map (fun a => a.id)) :
    ∀ e ∈ w.edges, e.source ∈ (initAdj w.agents).map Prod.fst
      ∧ e.target ∈ (initInDeg w.agents).map Prod.fst := by
  intro e he
  rw [initAdj_keys, initInDeg_keys, mem_dedupKeys, mem_dedupKeys]
  exact hvalid e he

theorem buildExecutionOrder_no_edges (w : Workflow) (h : w.edges = []) :
    buildExecutionOrder w = .ok w.agents := by
  simp [buildExecutionOrder, h]

theorem buildExecutionOrder_err (w : Workflow) (msg : String)
    (hne : w.edges ≠ [])
    (hfold : foldEdges w.edges (initAdj w.agents) (initInDeg w.agents) = .error msg) :
    buildExecutionOrder w = .error msg := by
  simp [buildExecutionOrder, hne, hfold]

theorem buildExecutionOrder_unfold (w : Workflow) (hne : w.edges ≠ [])
    (adj2 : Adj) (indeg2 : InDeg)
    (hfold : foldEdges w.edges (initAdj w.agents) (initInDeg w.agents) = .ok (adj2, indeg2)) :
    buildExecutionOrder w =
      (if (indeg2.filter (fun kv => kv.2 == 0)).map Prod.fst = [] then Except.ok w.agents
       else Except.ok
         ((kahnLoop adj2
            (((indeg2.filter (fun kv => kv.2 == 0)).map Prod.fst).length + posCount indeg2 + 1)
            indeg2
            ((indeg2.filter (fun kv => kv.2 == 0)).map Prod.fst)).filterMap
          (agentMapFind w.agents))) := by
  simp [buildExecutionOrder, hne, hfold]

theorem build_error_of_dangling (w : Workflow) (e : WorkflowEdge)
    (he : e ∈ w.edges)
    (hbad : e.source ∉ w.agents.map (fun a => a.id)
      ∨ e.target ∉ w.agents.map (fun a => a.id)) :
    ∃ msg, buildExecutionOrder w = .error msg := by
  have hne : w.edges ≠ [] := by
    intro h
    rw [h] at he
    simp at he
  have hbad2 : e.source ∉ (initAdj w.agents).map Prod.fst
      ∨ e.target ∉ (initInDeg w.agents).map Prod.fst := by
    rw [initAdj_keys, initInDeg_keys]
    rcases hbad with h | h
    · exact Or.inl fun hc => h ((mem_dedupKeys _ _).mp hc)
    · exact Or.inr fun hc => h ((mem_dedupKeys _ _).mp hc)
  obtain ⟨msg, hmsg⟩ := foldEdges_error w.edges (initAdj w.agents) (initInDeg w.agents)
    ⟨e, he, hbad2⟩
  exact ⟨msg, buildExecutionOrder_err w msg hne hmsg⟩

theorem wInDeg_pos (edges : List WorkflowEdge) (s : String)
    (h : ∃ e ∈ edges, e.target = s) : 1 ≤ wInDeg edges s := by
  obtain ⟨e, he, ht⟩ := h
  have hpos : 0 < edges.countP (fun e => e.target == s) :=
    List.countP_pos_iff.mpr ⟨e, he, by simp [ht]⟩
  simpa [wInDeg] using hpos

theorem wInDeg_eq_zero (edges : List WorkflowEdge) (s : String)
    (h : ∀ e ∈ edges, e.target ≠ s) : wInDeg edges s = 0 := by
  rw [wInDeg]
  exact List.countP_eq_zero.mpr fun e he => by simp [h e he]

theorem build_fallback_cycle (w : Workflow)
    (hvalid : ∀ e ∈ w.edges, e.source ∈ w.agents.map (fun a => a.id)
      ∧ e.target ∈ w.agents.map (fun a => a.id))
    (hin : ∀ a ∈ w.agents, ∃ e ∈ w.edges, e.target = a.id) :
    buildExecutionOrder w = .ok w.agents := by
  by_cases hne : w.edges = []
  · exact buildExecutionOrder_no_edges w hne
  · obtain ⟨adj2, indeg2, hfold, hka, hki, hla, hli⟩ :=
      foldEdges_ok w.edges (initAdj w.agents) (initInDeg w.agents) (valid_keys w hvalid)
    rw [buildExecutionOrder_unfold w hne adj2 indeg2 hfold]
    have hkeys : indeg2.map Prod.fst = dedupKeys (w.agents.map (fun a => a.id)) := by
      rw [hki, initInDeg_keys]
    have hfil : indeg2.filter (fun kv => kv.2 == 0) = [] := by
      rw [List.filter_eq_nil_iff]
      intro kv hkv
      have hmemk : kv.1 ∈ dedupKeys (w.agents.map (fun a => a.id)) := by
        rw [← hkeys]
        exact List.mem_map.mpr ⟨kv, hkv, rfl⟩
      have hlk : alookup indeg2 kv.1 = some kv.2 :=
        alookup_of_mem_nodup (hkeys ▸ nodup_dedupKeys _) hkv
      have hlk2 : alookup indeg2 kv.1 = some ((0 : Int) + (wInDeg w.edges kv.1 : Int)) := by
        rw [hli kv.1, initInDeg_alookup]
        simp [hmemk]
      have hval : kv.2 = (wInDeg w.edges kv.1 : Int) := by
        rw [hlk] at hlk2
        simpa using hlk2
      obtain ⟨a, ha, haid⟩ := List.mem_map.mp ((mem_dedupKeys _ _).mp hmemk)
      have hw : 1 ≤ wInDeg w.edges kv.1 := wInDeg_pos _ _ (haid ▸ hin a ha)
      simp only [beq_iff_eq]
      omega
    rw [hfil]
    simp

theorem agentMapFind_mem {agents : List AgentNode} {i : String} {a : AgentNode}
    (h : agentMapFind agents i = some a) : a ∈ agents ∧ a.id = i := by
  constructor
  · have := List.mem_of_find?_eq_some h
    exact (List.mem_reverse).mp this
  · have := List.find?_some h
    simpa using this

theorem agentMapFind_isSome {agents : List AgentNode} {i : String}
    (h : i ∈ agents.map (fun a => a.id)) : (agentMapFind agents i).isSome = true := by
  rw [agentMapFind, List.find?_isSome]
  obtain ⟨a, ha, haid⟩ := List.mem_map.mp h
  exact ⟨a, List.mem_reverse.mpr ha, by simp [haid]⟩

theorem build_omits_closed_set (w : Workflow) (S : List String)
    (hnd : (w.agents.map (fun a => a.id)).Nodup)
    (hvalid : ∀ e ∈ w.edges, e.source ∈ w.agents.map (fun a => a.id)
      ∧ e.target ∈ w.agents.map (fun a => a.id))
    (hSne : S ≠ [])
    (hSsub : ∀ s ∈ S, s ∈ w.agents.map (fun a => a.id))
    (hScyc : ∀ s ∈ S, ∃ e ∈ w.edges, e.target = s ∧ e.source ∈ S)
    (hseed : ∃ a ∈ w.agents, ∀ e ∈ w.edges, e.target ≠ a.id) :
    ∃ order, buildExecutionOrder w = .ok order ∧
      order.length < w.agents.length ∧
      (∀ b ∈ order, b ∈ w.agents) ∧
      (∀ s ∈ S, ∀ b ∈ order, b.id ≠ s) := by
  obtain ⟨s0, hs0⟩ : ∃ s0, s0 ∈ S := by
    cases S with
    | nil => exact absurd rfl hSne
    | cons s0 rest => exact ⟨s0, List.mem_cons_self _ _⟩
  have hedges : w.edges ≠ [] := by
    obtain ⟨e, he, _⟩ := hScyc s0 hs0
    intro h
    rw [h] at he
    simp at he
  obtain ⟨adj2, indeg2, hfold, hka, hki, hla, hli⟩ :=
    foldEdges_ok w.edges (initAdj w.agents) (initInDeg w.agents) (valid_keys w hvalid)
  have hkeysI : indeg2.map Prod.fst = dedupKeys (w.agents.map (fun a => a.id)) := by
    rw [hki, initInDeg_keys]
  have hkeysnd : (indeg2.map Prod.fst).Nodup := by
    rw [hkeysI]
    exact nodup_dedupKeys _
  have hlI : ∀ k ∈ dedupKeys (w.agents.map (fun a => a.id)),
      alookup indeg2 k = some ((wInDeg w.edges k : Int)) := by
    intro k hk
    rw [hli k, initInDeg_alookup]
    simp [hk]
  have hlA : ∀ k ∈ dedupKeys (w.agents.map (fun a => a.id)),
      alookup adj2 k = some (adjOf w.edges k) := by
    intro k hk
    rw [hla k, initAdj_alookup]
    simp [hk]
  have hstartne : (indeg2.filter (fun kv => kv.2 == 0)).map Prod.fst ≠ [] := by
    obtain ⟨a, ha, hain⟩ := hseed
    have haid : a.id ∈ dedupKeys (w.agents.map (fun b => b.id)) :=
      (mem_dedupKeys _ _).mpr (List.mem_map.mpr ⟨a, ha, rfl⟩)
    have hW : wInDeg w.edges a.id = 0 := wInDeg_eq_zero _ _ hain
    have hl0 : alookup indeg2 a.id = some 0 := by
      rw [hlI a.id haid, hW]
      rfl
    have hmem : (a.id, (0 : Int)) ∈ indeg2 := alookup_some_mem hl0
    intro hempty
    have : a.id ∈ (indeg2.filter (fun kv => kv.2 == 0)).map Prod.fst :=
      List.mem_map.mpr ⟨(a.id, 0), List.mem_filter.mpr ⟨hmem, by simp⟩, rfl⟩
    rw [hempty] at this
    simp at this
  rw [buildExecutionOrder_unfold w hedges adj2 indeg2 hfold]
  rw [if_neg hstartne]
  have hstartsub : ∀ k ∈ (indeg2.filter (fun kv => kv.2 == 0)).map Prod.fst,
      k ∈ indeg2.map Prod.fst := by
    intro k hk
    obtain ⟨kv, hkv, hfst⟩ := List.mem_map.mp hk
    exact List.mem_map.mpr ⟨kv, (List.mem_filter.mp hkv).1, hfst⟩
  have hstartnd : ((indeg2.filter (fun kv => kv.2 == 0)).map Prod.fst).Nodup :=
    ((List.filter_sublist _).map Prod.fst).nodup hkeysnd
  have hstartneg : ∀ k ∈ (indeg2.filter (fun kv => kv.2 == 0)).map Prod.fst,
      ∃ v, alookup indeg2 k = some v ∧ v ≤ 0 := by
    intro k hk
    obtain ⟨kv, hkv, hfst⟩ := List.mem_map.mp hk
    obtain ⟨hkv1, hkv2⟩ := List.mem_filter.mp hkv
    have hz : kv.2 = 0 := by simpa using hkv2
    refine ⟨0, ?_, le_refl 0⟩
    have := alookup_of_mem_nodup hkeysnd (show (k, kv.2) ∈ indeg2 by
      rw [← hfst]
      simpa using hkv1)
    rw [hz] at this
    exact this
  have hSval : ∀ s ∈ S, alookup indeg2 s
      = some ((wInDeg w.edges s : Int) - (consumed w.edges [] s : Int)) := by
    intro s hs
    have : s ∈ dedupKeys (w.agents.map (fun a => a.id)) :=
      (mem_dedupKeys _ _).mpr (hSsub s hs)
    rw [hlI s this]
    simp [consumed]
  obtain ⟨hresS, hresnd, hreskeys, _⟩ := kahnLoop_excludes w.edges adj2 S hScyc
    (((indeg2.filter (fun kv => kv.2 == 0)).map Prod.fst).length + posCount indeg2 + 1)
    indeg2 ((indeg2.filter (fun kv => kv.2 == 0)).map Prod.fst) []
    (by omega)
    (by
      rw [hkeysI]
      exact hlA)
    hstartsub
    (by simpa using hstartnd)
    (by simpa using hstartneg)
    (by simp)
    hSval
  refine ⟨_, rfl, ?_, ?_, ?_⟩
  · have hlen : ((kahnLoop adj2
        (((indeg2.filter (fun kv => kv.2 == 0)).map Prod.fst).length + posCount indeg2 + 1)
        indeg2 ((indeg2.filter (fun kv => kv.2 == 0)).map Prod.fst)).filterMap
        (agentMapFind w.agents)).length
      = (kahnLoop adj2
        (((indeg2.filter (fun kv => kv.2 == 0)).map Prod.fst).length + posCount indeg2 + 1)
        indeg2 ((indeg2.filter (fun kv => kv.2 == 0)).map Prod.fst)).length := by
      refine filterMap_length_of_isSome _ _ fun i hi => agentMapFind_isSome ?_
      have := hreskeys i hi
      rw [hkeysI] at this
      exact (mem_dedupKeys _ _).mp this
    rw [hlen]
    have hs0ids : s0 ∈ w.agents.map (fun a => a.id) := hSsub s0 hs0
    have hcard1 : (kahnLoop adj2
        (((indeg2.filter (fun kv => kv.2 == 0)).map Prod.fst).length + posCount indeg2 + 1)
        indeg2 ((indeg2.filter (fun kv => kv.2 == 0)).map Prod.fst)).toFinset.card
        = (kahnLoop adj2
        (((indeg2.filter (fun kv => kv.2 == 0)).map Prod.fst).length + posCount indeg2 + 1)
        indeg2 ((indeg2.filter (fun kv => kv.2 == 0)).map Prod.fst)).length :=
      List.toFinset_card_of_nodup hresnd
    have hsub : (kahnLoop adj2
        (((indeg2.filter (fun kv => kv.2 == 0)).map Prod.fst).length + posCount indeg2 + 1)
        indeg2 ((indeg2.filter (fun kv => kv.2 == 0)).map Prod.fst)).toFinset
        ⊆ (w.agents.map (fun a => a.id)).toFinset.erase s0 := by
      intro x hx
      rw [List.mem_toFinset] at hx
      rw [Finset.mem_erase, List.mem_toFinset]
      constructor
      · intro hxs
        exact hresS s0 hs0 (hxs ▸ hx)
      · have := hreskeys x hx
        rw [hkeysI] at this
        exact (mem_dedupKeys _ _).mp this
    have hle := Finset.card_le_card hsub
    rw [Finset.card_erase_of_mem (List.mem_toFinset.mpr hs0ids)] at hle
    have hidcard : (w.agents.map (fun a => a.id)).toFinset.card
        = (w.agents.map (fun a => a.id)).length := List.toFinset_card_of_nodup hnd
    rw [hidcard] at hle
    have hmap_len : (w.agents.map (fun a => a.id)).length = w.agents.length :=
      List.length_map _ _
    have hpos : 0 < w.agents.length := by
      cases hag : w.agents with
      | nil =>
        rw [hag] at hs0ids
        simp at hs0ids
      | cons x xs => simp
    omega
  · intro b hb
    obtain ⟨i, hi, hfind⟩ := List.mem_filterMap.mp hb
    exact (agentMapFind_mem hfind).1
  · intro s hs b hb
    obtain ⟨i, hi, hfind⟩ := List.mem_filterMap.mp hb
    rw [(agentMapFind_mem hfind).2]
    intro hc
    exact hresS s hs (hc ▸ hi)

theorem executeAgent_ret_status (env : Env) (node : AgentNode) (input : Value) (t : Nat)
    (r : AgentExecResult) (hreg : node.type ∈ env.registry)
    (hb : env.behave node input = .ret r) :
    (executeAgent env node input t).status
      = (if r.success then ExecutionStatus.completed else ExecutionStatus.failed)
      ∧ (executeAgent env node input t).output = r.output := by
  simp [executeAgent, hreg, hb]

theorem executeAgent_unknown (env : Env) (node : AgentNode) (input : Value) (t : Nat)
    (hreg : node.type ∉ env.registry) :
    (executeAgent env node input t).status = ExecutionStatus.failed ∧
    (executeAgent env node input t).output
      = Value.vdict [("error", Value.vstr (unknownAgentMsg node.type))] := by
  simp [executeAgent, hreg]

theorem executeAgent_exn (env : Env) (node : AgentNode) (input : Value) (t : Nat)
    (msg : String) (hreg : node.type ∈ env.registry)
    (hb : env.behave node input = .exn msg) :
    (executeAgent env node input t).status = ExecutionStatus.failed ∧
    (executeAgent env node input t).output = Value.vdict [("error", Value.vstr msg)] := by
  simp [executeAgent, hreg, hb]

theorem filterMap_congr_fn {α β : Type} (l : List α) (f g : α → Option β)
    (h : ∀ x ∈ l, f x = g x) : l.filterMap f = l.filterMap g := by
  induction l with
  | nil => rfl
  | cons x rest ih =>
    rw [List.filterMap_cons, List.filterMap_cons, h x (List.mem_cons_self _ _),
      ih fun z hz => h z (List.mem_cons_of_mem _ hz)]

theorem pipeIn_succ_cons (env : Env) (node : AgentNode) (rest : List AgentNode)
    (input : Value) (t0 : Nat) : ∀ i : Nat,
    pipeIn env (node :: rest) input t0 (i + 1)
      = pipeIn env rest (executeAgent env node input t0).output (t0 + env.dur node input) i := by
  intro i
  induction i with
  | zero => simp [pipeIn]
  | succ i ih =>
    have hL : pipeIn env (node :: rest) input t0 (i + 1 + 1)
        = (match (node :: rest)[i + 1]? with
          | none => pipeIn env (node :: rest) input t0 (i + 1)
          | some nd =>
            ((executeAgent env nd (pipeIn env (node :: rest) input t0 (i + 1)).1
                (pipeIn env (node :: rest) input t0 (i + 1)).2).output,
              (pipeIn env (node :: rest) input t0 (i + 1)).2
                + env.dur nd (pipeIn env (node :: rest) input t0 (i + 1)).1)) := rfl
    have hR : pipeIn env rest (executeAgent env node input t0).output
          (t0 + env.dur node input) (i + 1)
        = (match rest[i]? with
          | none => pipeIn env rest (executeAgent env node input t0).output
              (t0 + env.dur node input) i
          | some nd =>
            ((executeAgent env nd (pipeIn env rest (executeAgent env node input t0).output
                  (t0 + env.dur node input) i).1
                (pipeIn env rest (executeAgent env node input t0).output
                  (t0 + env.dur node input) i).2).output,
              (pipeIn env rest (executeAgent env node input t0).output
                  (t0 + env.dur node input) i).2
                + env.dur nd (pipeIn env rest (executeAgent env node input t0).output
                  (t0 + env.dur node input) i).1)) := rfl
    rw [hL, hR, List.getElem?_cons_succ, ih]

theorem pipeRes_zero_cons (env : Env) (node : AgentNode) (rest : List AgentNode)
    (input : Value) (t0 : Nat) :
    pipeRes env (node :: rest) input t0 0 = some (executeAgent env node input t0) := by
  simp [pipeRes, pipeIn]

theorem pipeRes_succ_cons (env : Env) (node : AgentNode) (rest : List AgentNode)
    (input : Value) (t0 : Nat) (i : Nat) :
    pipeRes env (node :: rest) input t0 (i + 1)
      = pipeRes env rest (executeAgent env node input t0).output (t0 + env.dur node input) i := by
  simp only [pipeRes, pipeIn_succ_cons, List.getElem?_cons_succ]

theorem pipeRes_zero (env : Env) (nodes : List AgentNode) (input : Value) (t0 : Nat)
    (node : AgentNode) (h : nodes[0]? = some node) :
    pipeRes env nodes input t0 0 = some (executeAgent env node input t0) := by
  simp [pipeRes, h, pipeIn]

theorem pipeRes_succ (env : Env) (nodes : List AgentNode) (input : Value) (t0 : Nat)
    (i : Nat) (node : AgentNode) (r : ModelAgentExecResult)
    (hn : nodes[i + 1]? = some node) (hr : pipeRes env nodes input t0 i = some r) :
    (pipeIn env nodes input t0 (i + 1)).1 = r.output ∧
    pipeRes env nodes input t0 (i + 1)
      = some (executeAgent env node r.output (pipeIn env nodes input t0 (i + 1)).2) := by
  have hlt : i + 1 < nodes.length := by
    rcases List.getElem?_eq_some.mp hn with ⟨h, _⟩
    exact h
  have hlt0 : i < nodes.length := by omega
  have hni : nodes[i]? = some nodes[i] := List.getElem?_eq_getElem hlt0
  have hrdef : r = executeAgent env nodes[i] (pipeIn env nodes input t0 i).1
      (pipeIn env nodes input t0 i).2 := by
    rw [pipeRes, hni] at hr
    simpa using hr.symm
  have hfst : (pipeIn env nodes input t0 (i + 1)).1 = r.output := by
    rw [pipeIn, hni, hrdef]
  exact ⟨hfst, by rw [pipeRes, hn, hfst]⟩

theorem runAgents_stops (env : Env) : ∀ (nodes : List AgentNode) (cur : Value) (t : Nat)
    (k : Nat), k < nodes.length →
    (∀ j r, j < k → pipeRes env nodes cur t j = some r →
      r.status = ExecutionStatus.completed) →
    (∀ r, pipeRes env nodes cur t k = some r → r.status = ExecutionStatus.failed) →
    (runAgents env nodes cur t).1 = (List.range (k + 1)).filterMap (pipeRes env nodes cur t) ∧
    (runAgents env nodes cur t).2.1 = none := by
  intro nodes
  induction nodes with
  | nil =>
    intro cur t k hk
    simp at hk
  | cons node rest ih =>
    intro cur t k hk hpre hfail
    cases k with
    | zero =>
      have h0 := pipeRes_zero_cons env node rest cur t
      have hf := hfail _ h0
      have hne : ¬ (executeAgent env node cur t).status = ExecutionStatus.completed := by
        rw [hf]
        intro hc
        cases hc
      constructor
      · simp only [runAgents, if_neg hne]
        rw [show List.range 1 = [0] from rfl]
        rw [List.filterMap_cons, h0]
        rfl
      · simp only [runAgents, if_neg hne]
    | succ k =>
      have h0 := pipeRes_zero_cons env node rest cur t
      have hc0 : (executeAgent env node cur t).status = ExecutionStatus.completed :=
        hpre 0 _ (Nat.succ_pos k) h0
      have hk2 : k < rest.length := by simpa using hk
      have hpre2 : ∀ j r, j < k →
          pipeRes env rest (executeAgent env node cur t).output (t + env.dur node cur) j
            = some r → r.status = ExecutionStatus.completed := by
        intro j r hj hr
        refine hpre (j + 1) r (by omega) ?_
        rwa [pipeRes_succ_cons]
      have hfail2 : ∀ r,
          pipeRes env rest (executeAgent env node cur t).output (t + env.dur node cur) k
            = some r → r.status = ExecutionStatus.failed := by
        intro r hr
        refine hfail r ?_
        rwa [pipeRes_succ_cons]
      obtain ⟨ih1, ih2⟩ := ih _ _ k hk2 hpre2 hfail2
      constructor
      · simp only [runAgents, if_pos hc0]
        rw [List.range_succ_eq_map, List.filterMap_cons, h0, List.filterMap_map]
        have hcg : (List.range (k + 1)).filterMap
              ((pipeRes env (node :: rest) cur t) ∘ Nat.succ)
            = (List.range (k + 1)).filterMap
              (pipeRes env rest (executeAgent env node cur t).output (t + env.dur node cur)) :=
          filterMap_congr_fn _ _ _ fun i _ => pipeRes_succ_cons env node rest cur t i
        rw [hcg, ← ih1]
      · simp only [runAgents, if_pos hc0]
        exact ih2

theorem runAgents_all (env : Env) : ∀ (nodes : List AgentNode) (cur : Value) (t : Nat),
    (∀ j r, pipeRes env nodes cur t j = some r → r.status = ExecutionStatus.completed) →
    (runAgents env nodes cur t).1
      = (List.range nodes.length).filterMap (pipeRes env nodes cur t) ∧
    (runAgents env nodes cur t).2.1 = some (pipeIn env nodes cur t nodes.length).1 := by
  intro nodes
  induction nodes with
  | nil =>
    intro cur t _
    simp [runAgents, pipeIn]
  | cons node rest ih =>
    intro cur t hall
    have h0 := pipeRes_zero_cons env node rest cur t
    have hc0 : (executeAgent env node cur t).status = ExecutionStatus.completed := hall 0 _ h0
    have hall2 : ∀ j r,
        pipeRes env rest (executeAgent env node cur t).output (t + env.dur node cur) j
          = some r → r.status = ExecutionStatus.completed := by
      intro j r hr
      refine hall (j + 1) r ?_
      rwa [pipeRes_succ_cons]
    obtain ⟨ih1, ih2⟩ := ih _ _ hall2
    constructor
    · simp only [runAgents, if_pos hc0]
      rw [List.length_cons, List.range_succ_eq_map, List.filterMap_cons, h0, List.filterMap_map]
      have hcg : (List.range rest.length).filterMap
            ((pipeRes env (node :: rest) cur t) ∘ Nat.succ)
          = (List.range rest.length).filterMap
            (pipeRes env rest (executeAgent env node cur t).output (t + env.dur node cur)) :=
        filterMap_congr_fn _ _ _ fun i _ => pipeRes_succ_cons env node rest cur t i
      rw [hcg, ← ih1]
    · simp only [runAgents, if_pos hc0]
      rw [ih2, List.length_cons, pipeIn_succ_cons]

theorem runAgents_all_easy (env : Env) : ∀ (nodes : List AgentNode) (cur : Value) (t : Nat),
    (∀ node, node ∈ nodes → ∀ v s, (executeAgent env node v s).status
      = ExecutionStatus.completed) →
    (runAgents env nodes cur t).1.length = nodes.length ∧
    (runAgents env nodes cur t).2.1.isSome = true := by
  intro nodes
  induction nodes with
  | nil =>
    intro cur t _
    simp [runAgents]
  | cons node rest ih =>
    intro cur t hall
    have hc0 := hall node (List.mem_cons_self _ _) cur t
    obtain ⟨ih1, ih2⟩ := ih (executeAgent env node cur t).output (t + env.dur node cur)
      fun n hn v s => hall n (List.mem_cons_of_mem _ hn) v s
    constructor
    · simp only [runAgents, if_pos hc0, List.length_cons]
      omega
    · simp only [runAgents, if_pos hc0]
      exact ih2

theorem range_filterMap_pipeRes_length (env : Env) (nodes : List AgentNode) (input : Value)
    (t0 : Nat) (n : Nat) (hn : n ≤ nodes.length) :
    ((List.range n).filterMap (pipeRes env nodes input t0)).length = n := by
  have h : ∀ i ∈ List.range n, (pipeRes env nodes input t0 i).isSome = true := by
    intro i hi
    have hi2 : i < nodes.length := by
      have := List.mem_range.mp hi
      omega
    rw [pipeRes, List.getElem?_eq_getElem hi2]
    rfl
  rw [filterMap_length_of_isSome _ _ h, List.length_range]

theorem executeWorkflow_err (env : Env) (w : Workflow) (input : Value) (eid : String)
    (t0 : Nat) (msg : String) (h : buildExecutionOrder w = .error msg) :
    executeWorkflow env w input eid t0 =
      { id := eid
        workflow_id := w.id
        status := ExecutionStatus.failed
        started_at := t0
        completed_at := some t0
        input := toInputStr input
        results := none
        metrics := none
        agent_executions := [] } := by
  simp [executeWorkflow, h]

theorem executeWorkflow_ok_failed (env : Env) (w : Workflow) (input : Value) (eid : String)
    (t0 : Nat) (order : List AgentNode)
    (hord : buildExecutionOrder w = .ok order)
    (hnone : (runAgents env order input t0).2.1 = none) :
    executeWorkflow env w input eid t0 =
      { id := eid
        workflow_id := w.id
        status := ExecutionStatus.failed
        started_at := t0
        completed_at := some (runAgents env order input t0).2.2
        input := toInputStr input
        results := none
        metrics := none
        agent_executions := (runAgents env order input t0).1 } := by
  simp [executeWorkflow, hord, hnone]

theorem executeWorkflow_ok_completed (env : Env) (w : Workflow) (input : Value) (eid : String)
    (t0 : Nat) (order : List AgentNode) (out : Value)
    (hord : buildExecutionOrder w = .ok order)
    (hsome : (runAgents env order input t0).2.1 = some out) :
    executeWorkflow env w input eid t0 =
      { id := eid
        workflow_id := w.id
        status := ExecutionStatus.completed
        started_at := t0
        completed_at := some (runAgents env order input t0).2.2
        input := toInputStr input
        results := some out
        metrics := some (calculateMetrics (runAgents env order input t0).1)
        agent_executions := (runAgents env order input t0).1 } := by
  simp [executeWorkflow, hord, hsome]

theorem pipeIn_succ_output (env : Env) (nodes : List AgentNode) (input : Value) (t0 : Nat)
    (i : Nat) (node : AgentNode) (r : ModelAgentExecResult)
    (hn : nodes[i]? = some node) (hr : pipeRes env nodes input t0 i = some r) :
    (pipeIn env nodes input t0 (i + 1)).1 = r.output := by
  have hrdef : r = executeAgent env node (pipeIn env nodes input t0 i).1
      (pipeIn env nodes input t0 i).2 := by
    rw [pipeRes, hn] at hr
    simpa using hr.symm
  simp only [pipeIn, hn, hrdef]

theorem status_of_pipeRes_eq {env : Env} {nodes : List AgentNode} {input : Value}
    {t0 : Nat} {i : Nat} {st : ExecutionStatus} {r : ModelAgentExecResult}
    (hcomp : Option.map (fun x => x.status) (pipeRes env nodes input t0 i) = some st)
    (hr : pipeRes env nodes input t0 i = some r) : r.status = st := by
  rw [hr] at hcomp
  simpa using hcomp

/-- C1: if the k-th agent (1-indexed) of the resolved order produces a failed
result — success=false, an exception, or an unregistered type all become a
failed ModelAgentExecResult in _execute_agent — while every earlier agent
completed, execute_workflow returns a record with exactly k entries in
agent_executions, overall status failed, completed_at set and results unset;
no agent after the k-th runs, since the trace stops at k entries. -/
theorem C1_fail_fast (env : Env) (w : Workflow) (input : Value) (eid : String) (t0 : Nat)
    (order : List AgentNode) (k : Nat)
    (hord : buildExecutionOrder w = .ok order)
    (hk1 : 1 ≤ k) (hk : k ≤ order.length)
    (hpre : ∀ j r, j < k - 1 → pipeRes env order input t0 j = some r →
      r.status = ExecutionStatus.completed)
    (hfail : ∃ r, pipeRes env order input t0 (k - 1) = some r ∧
      r.status = ExecutionStatus.failed) :
    (executeWorkflow env w input eid t0).agent_executions.length = k ∧
    (executeWorkflow env w input eid t0).status = ExecutionStatus.failed ∧
    (executeWorkflow env w input eid t0).completed_at.isSome = true ∧
    (executeWorkflow env w input eid t0).results = none := by
  obtain ⟨r, hr, hrs⟩ := hfail
  have hklt : k - 1 < order.length := by omega
  have hfail2 : ∀ r2, pipeRes env order input t0 (k - 1) = some r2 →
      r2.status = ExecutionStatus.failed := by
    intro r2 hr2
    rw [hr] at hr2
    rw [← Option.some_inj.mp hr2]
    exact hrs
  obtain ⟨h1, h2⟩ := runAgents_stops env order input t0 (k - 1) hklt hpre hfail2
  rw [executeWorkflow_ok_failed env w input eid t0 order hord h2]
  refine ⟨?_, rfl, rfl, rfl⟩
  rw [h1, range_filterMap_pipeRes_length env order input t0 (k - 1 + 1) (by omega)]
  omega

/-- C1 witness: in the two-node chain a to b where b reports success=false,
the record has exactly 2 agent executions, is failed, has completed_at set
and no results. -/
theorem C1_fail_fast_witness :
    (executeWorkflow cEnvFailB cWab (Value.vstr "hi") "e1" 0).agent_executions.length = 2 ∧
    (executeWorkflow cEnvFailB cWab (Value.vstr "hi") "e1" 0).status
      = ExecutionStatus.failed ∧
    (executeWorkflow cEnvFailB cWab (Value.vstr "hi") "e1" 0).completed_at.isSome = true ∧
    (executeWorkflow cEnvFailB cWab (Value.vstr "hi") "e1" 0).results = none :=
  C1_fail_fast cEnvFailB cWab (Value.vstr "hi") "e1" 0 [cA, cB] 2
    (by rfl) (by decide) (by decide)
    (by
      intro j r hj hr
      have hj0 : j = 0 := by omega
      subst hj0
      exact status_of_pipeRes_eq (by rfl) hr)
    ⟨_, rfl, rfl⟩

/-- C2: the first node receives the original caller input, each later node
receives exactly the output of the previous node's result, and when every
node completes the record's results field is the last node's output. -/
theorem C2_data_threading (env : Env) (w : Workflow) (input : Value) (eid : String)
    (t0 : Nat) (order : List AgentNode)
    (hord : buildExecutionOrder w = .ok order)
    (hall : ∀ j r, pipeRes env order input t0 j = some r →
      r.status = ExecutionStatus.completed) :
    (executeWorkflow env w input eid t0).agent_executions
      = (List.range order.length).filterMap (pipeRes env order input t0) ∧
    (∀ node, order[0]? = some node →
      pipeRes env order input t0 0 = some (executeAgent env node input t0)) ∧
    (∀ i node r, order[i + 1]? = some node → pipeRes env order input t0 i = some r →
      pipeRes env order input t0 (i + 1)
        = some (executeAgent env node r.output (pipeIn env order input t0 (i + 1)).2)) ∧
    (executeWorkflow env w input eid t0).status = ExecutionStatus.completed ∧
    (executeWorkflow env w input eid t0).results
      = some (pipeIn env order input t0 order.length).1 ∧
    (order ≠ [] → ∃ rl, pipeRes env order input t0 (order.length - 1) = some rl ∧
      (executeWorkflow env w input eid t0).results = some rl.output) := by
  obtain ⟨h1, h2⟩ := runAgents_all env order input t0 hall
  rw [executeWorkflow_ok_completed env w input eid t0 order
    (pipeIn env order input t0 order.length).1 hord h2]
  refine ⟨h1, ?_, ?_, rfl, rfl, ?_⟩
  · intro node hn
    exact pipeRes_zero env order input t0 node hn
  · intro i node r hn hr
    exact (pipeRes_succ env order input t0 i node r hn hr).2
  · intro hne
    have hpos : 0 < order.length := List.length_pos.mpr hne
    have hn : order[order.length - 1]? = some order[order.length - 1] :=
      List.getElem?_eq_getElem (by omega)
    have hres : pipeRes env order input t0 (order.length - 1)
        = some (executeAgent env order[order.length - 1]
            (pipeIn env order input t0 (order.length - 1)).1
            (pipeIn env order input t0 (order.length - 1)).2) := by
      rw [pipeRes, hn]
    refine ⟨_, hres, ?_⟩
    have hlast : order.length - 1 + 1 = order.length := by omega
    have := pipeIn_succ_output env order input t0 (order.length - 1) _ _ hn hres
    rw [hlast] at this
    rw [this]

/-- C2 witness: in the chain a to b with both agents succeeding, the record
completes and results is b's output. -/
theorem C2_data_threading_witness :
    (executeWorkflow cEnvOK cWab (Value.vstr "hi") "e1" 0).status
      = ExecutionStatus.completed ∧
    (executeWorkflow cEnvOK cWab (Value.vstr "hi") "e1" 0).results
      = some (Value.vstr "out-b") := by
  have h := C2_data_threading cEnvOK cWab (Value.vstr "hi") "e1" 0 [cA, cB]
    (by rfl)
    (by
      intro j r hr
      rcases j with _ | j
      · exact status_of_pipeRes_eq (by rfl) hr
      rcases j with _ | j
      · exact status_of_pipeRes_eq (by rfl) hr
      · rw [show pipeRes cEnvOK [cA, cB] (Value.vstr "hi") 0 (j + 1 + 1) = none from by
          rw [pipeRes]
          rfl] at hr
        cases hr)
  exact ⟨h.2.2.2.1, by rw [h.2.2.2.2.1]; rfl⟩

/-- C3 counterexample: the graph with one node a and the edge x to a does
not resolve; adjacency[x] raises KeyError instead of the edge being
silently dropped, and the whole execution is marked failed by the top-level
handler. -/
theorem C3_counterexample :
    buildExecutionOrder cWdangle = Except.error "KeyError: x" ∧
    (executeWorkflow cEnvOK cWdangle (Value.vstr "hi") "e1" 0).status
      = ExecutionStatus.failed := by
  constructor
  · rfl
  · rfl

/-- C3 amended: an edge whose source or target is not a declared node id
makes the resolver raise a KeyError (it does not succeed and does not drop
the edge); execute_workflow catches the error at top level and returns a
failed record with no agent executed and completed_at set. -/
theorem C3_amended (w : Workflow) (e : WorkflowEdge) (env : Env) (input : Value)
    (eid : String) (t0 : Nat)
    (he : e ∈ w.edges)
    (hbad : e.source ∉ w.agents.map (fun a => a.id)
      ∨ e.target ∉ w.agents.map (fun a => a.id)) :
    ∃ msg, buildExecutionOrder w = .error msg ∧
      (executeWorkflow env w input eid t0).status = ExecutionStatus.failed ∧
      (executeWorkflow env w input eid t0).agent_executions = [] ∧
      (executeWorkflow env w input eid t0).completed_at.isSome = true := by
  obtain ⟨msg, hmsg⟩ := build_error_of_dangling w e he hbad
  rw [executeWorkflow_err env w input eid t0 msg hmsg]
  exact ⟨msg, hmsg, rfl, rfl, rfl⟩

/-- C3 amended witness: instantiated on the dangling-edge fixture. -/
theorem C3_amended_witness :
    ∃ msg, buildExecutionOrder cWdangle = .error msg ∧
      (executeWorkflow cEnvOK cWdangle (Value.vstr "hi") "e1" 0).status
        = ExecutionStatus.failed ∧
      (executeWorkflow cEnvOK cWdangle (Value.vstr "hi") "e1" 0).agent_executions = [] ∧
      (executeWorkflow cEnvOK cWdangle (Value.vstr "hi") "e1" 0).completed_at.isSome
        = true :=
  C3_amended cWdangle { source := "x", target := "a" } cEnvOK (Value.vstr "hi") "e1" 0
    (by decide) (Or.inl (by decide))

/-- C4 counterexample: when node b of the chain a to b fails, the returned
record is failed and its metrics field is unset, contradicting the claim
that aggregate metrics are present for failed executions too
(execute_workflow returns before _calculate_metrics on the failure path). -/
theorem C4_counterexample :
    (executeWorkflow cEnvFailB cWab (Value.vstr "hi") "e1" 0).status
      = ExecutionStatus.failed ∧
    (executeWorkflow cEnvFailB cWab (Value.vstr "hi") "e1" 0).metrics = none := by
  constructor
  · rfl
  · rfl

/-- C4 amended: every record returned by execute_workflow is completed or
failed; when it is completed the metrics are present and equal the sums of
the per-agent metrics over exactly the executed agents, with the agents
list the per-node metrics in execution order; when it is failed the metrics
field is unset. -/
theorem C4_amended (env : Env) (w : Workflow) (input : Value) (eid : String) (t0 : Nat) :
    ((executeWorkflow env w input eid t0).status = ExecutionStatus.completed ∨
      (executeWorkflow env w input eid t0).status = ExecutionStatus.failed) ∧
    ((executeWorkflow env w input eid t0).status = ExecutionStatus.completed →
      ∃ m, (executeWorkflow env w input eid t0).metrics = some m ∧
        m.total_tokens = ((executeWorkflow env w input eid t0).agent_executions.map
          (fun ae => ae.metrics.tokens_used)).sum ∧
        m.total_cost = ((executeWorkflow env w input eid t0).agent_executions.map
          (fun ae => ae.metrics.cost)).sum ∧
        m.total_latency_ms = ((executeWorkflow env w input eid t0).agent_executions.map
          (fun ae => ae.metrics.latency_ms)).sum ∧
        m.agents = (executeWorkflow env w input eid t0).agent_executions.map
          (fun ae => ae.metrics)) ∧
    ((executeWorkflow env w input eid t0).status = ExecutionStatus.failed →
      (executeWorkflow env w input eid t0).metrics = none) := by
  cases hb : buildExecutionOrder w with
  | error msg =>
    rw [executeWorkflow_err env w input eid t0 msg hb]
    refine ⟨Or.inr rfl, ?_, fun _ => rfl⟩
    intro h
    exact absurd h (by intro hc; cases hc)
  | ok order =>
    cases hrun : (runAgents env order input t0).2.1 with
    | none =>
      rw [executeWorkflow_ok_failed env w input eid t0 order hb hrun]
      refine ⟨Or.inr rfl, ?_, fun _ => rfl⟩
      intro h
      exact absurd h (by intro hc; cases hc)
    | some out =>
      rw [executeWorkflow_ok_completed env w input eid t0 order out hb hrun]
      refine ⟨Or.inl rfl, ?_, ?_⟩
      · intro _
        exact ⟨calculateMetrics (runAgents env order input t0).1, rfl, rfl, rfl, rfl, rfl⟩
      · intro h
        exact absurd h (by intro hc; cases hc)

/-- C4 amended witness: a completed run of the chain a to b carries metrics
equal to the sums over its two executed agents. -/
theorem C4_amended_witness :
    ∃ m, (executeWorkflow cEnvOK cWab (Value.vstr "hi") "e1" 0).metrics = some m ∧
      m.total_tokens = ((Execution.agent_executions
        (executeWorkflow cEnvOK cWab (Value.vstr "hi") "e1" 0)).map
          (fun ae => ae.metrics.tokens_used)).sum ∧
      m.total_cost = ((Execution.agent_executions
        (executeWorkflow cEnvOK cWab (Value.vstr "hi") "e1" 0)).map
          (fun ae => ae.metrics.cost)).sum ∧
      m.total_latency_ms = ((Execution.agent_executions
        (executeWorkflow cEnvOK cWab (Value.vstr "hi") "e1" 0)).map
          (fun ae => ae.metrics.latency_ms)).sum ∧
      m.agents = (Execution.agent_executions
        (executeWorkflow cEnvOK cWab (Value.vstr "hi") "e1" 0)).map
          (fun ae => ae.metrics) :=
  (C4_amended cEnvOK cWab (Value.vstr "hi") "e1" 0).2.1 (by rfl)

/-- C5: with at least one node, the resolver returns the declaration order
both when there are no edges and when every node has an incoming (valid)
edge, i.e. the topological seed set is empty because of a cycle. -/
theorem C5_fallback (w : Workflow) (hne : w.agents ≠ []) :
    (w.edges = [] → buildExecutionOrder w = .ok w.agents) ∧
    ((∀ e ∈ w.edges, e.source ∈ w.agents.map (fun a => a.id)
        ∧ e.target ∈ w.agents.map (fun a => a.id)) →
      (∀ a ∈ w.agents, ∃ e ∈ w.edges, e.target = a.id) →
      buildExecutionOrder w = .ok w.agents) :=
  ⟨buildExecutionOrder_no_edges w, fun hv hi => build_fallback_cycle w hv hi⟩

/-- C5 witness: the no-edge two-node graph and the full 2-cycle graph both
resolve to declaration order. -/
theorem C5_fallback_witness :
    buildExecutionOrder cWnoedges = .ok cWnoedges.agents ∧
    buildExecutionOrder cWallcyc = .ok cWallcyc.agents :=
  ⟨(C5_fallback cWnoedges (by simp [cWnoedges])).1 rfl,
   (C5_fallback cWallcyc (by simp [cWallcyc])).2 (by decide) (by decide)⟩

/-- C6: a node whose type is not registered does not crash the engine: when
reached (all earlier nodes completed), create_agent's ValueError is caught,
the node's result is failed with the message Unknown agent type: <type>
recorded under the error key of its output, the record becomes failed, and
no later node runs. -/
theorem C6_unknown_type (env : Env) (w : Workflow) (input : Value) (eid : String)
    (t0 : Nat) (order : List AgentNode) (j : Nat) (node : AgentNode)
    (hord : buildExecutionOrder w = .ok order)
    (hj : order[j]? = some node)
    (hreg : node.type ∉ env.registry)
    (hpre : ∀ i r, i < j → pipeRes env order input t0 i = some r →
      r.status = ExecutionStatus.completed) :
    (∃ r, pipeRes env order input t0 j = some r ∧
      r.status = ExecutionStatus.failed ∧
      r.output = Value.vdict [("error", Value.vstr (unknownAgentMsg node.type))]) ∧
    (executeWorkflow env w input eid t0).status = ExecutionStatus.failed ∧
    (executeWorkflow env w input eid t0).agent_executions.length = j + 1 ∧
    (executeWorkflow env w input eid t0).results = none := by
  have hlt : j < order.length := by
    rcases List.getElem?_eq_some.mp hj with ⟨h, _⟩
    exact h
  have hres : pipeRes env order input t0 j
      = some (executeAgent env node (pipeIn env order input t0 j).1
          (pipeIn env order input t0 j).2) := by
    rw [pipeRes, hj]
  obtain ⟨hst, hout⟩ := executeAgent_unknown env node (pipeIn env order input t0 j).1
    (pipeIn env order input t0 j).2 hreg
  have hfail2 : ∀ r, pipeRes env order input t0 j = some r →
      r.status = ExecutionStatus.failed := by
    intro r hr
    rw [hres] at hr
    rw [← Option.some_inj.mp hr]
    exact hst
  obtain ⟨h1, h2⟩ := runAgents_stops env order input t0 j hlt hpre hfail2
  rw [executeWorkflow_ok_failed env w input eid t0 order hord h2]
  refine ⟨⟨_, hres, hst, hout⟩, rfl, ?_, rfl⟩
  rw [h1]
  exact range_filterMap_pipeRes_length env order input t0 (j + 1) (by omega)

/-- C6 witness: in the chain a to b to u with u of unregistered type
mystery, the first two nodes complete, u's result is failed with the
Unknown agent type message, and the record is failed with 3 entries. -/
theorem C6_unknown_type_witness :
    (∃ r, pipeRes cEnvOK [cA, cB, cU] (Value.vstr "hi") 0 2 = some r ∧
      r.status = ExecutionStatus.failed ∧
      r.output = Value.vdict [("error", Value.vstr (unknownAgentMsg cU.type))]) ∧
    (executeWorkflow cEnvOK cWabu (Value.vstr "hi") "e1" 0).status
      = ExecutionStatus.failed ∧
    (executeWorkflow cEnvOK cWabu (Value.vstr "hi") "e1" 0).agent_executions.length
      = 2 + 1 ∧
    (executeWorkflow cEnvOK cWabu (Value.vstr "hi") "e1" 0).results = none :=
  C6_unknown_type cEnvOK cWabu (Value.vstr "hi") "e1" 0 [cA, cB, cU] 2 cU
    (by rfl) (by rfl) (by decide)
    (by
      intro i r hi hr
      rcases i with _ | i
      · exact status_of_pipeRes_eq (by rfl) hr
      rcases i with _ | i
      · exact status_of_pipeRes_eq (by rfl) hr
      · omega)

/-- C7: an exception raised inside agent.execute is caught by the engine and
becomes a failed result whose output records the exception message under the
error key; the workflow then halts exactly as for an agent-reported failure
and the exception never escapes (executeWorkflow is a total function whose
only failure signal is the returned record). -/
theorem C7_exception_capture (env : Env) (w : Workflow) (input : Value) (eid : String)
    (t0 : Nat) (order : List AgentNode) (j : Nat) (node : AgentNode) (msg : String)
    (hord : buildExecutionOrder w = .ok order)
    (hj : order[j]? = some node)
    (hreg : node.type ∈ env.registry)
    (hexn : env.behave node (pipeIn env order input t0 j).1 = .exn msg)
    (hpre : ∀ i r, i < j → pipeRes env order input t0 i = some r →
      r.status = ExecutionStatus.completed) :
    (∃ r, pipeRes env order input t0 j = some r ∧
      r.status = ExecutionStatus.failed ∧
      r.output = Value.vdict [("error", Value.vstr msg)]) ∧
    (executeWorkflow env w input eid t0).status = ExecutionStatus.failed ∧
    (executeWorkflow env w input eid t0).agent_executions.length = j + 1 ∧
    (executeWorkflow env w input eid t0).completed_at.isSome = true ∧
    (executeWorkflow env w input eid t0).results = none := by
  have hlt : j < order.length := by
    rcases List.getElem?_eq_some.mp hj with ⟨h, _⟩
    exact h
  have hres : pipeRes env order input t0 j
      = some (executeAgent env node (pipeIn env order input t0 j).1
          (pipeIn env order input t0 j).2) := by
    rw [pipeRes, hj]
  obtain ⟨hst, hout⟩ := executeAgent_exn env node (pipeIn env order input t0 j).1
    (pipeIn env order input t0 j).2 msg hreg hexn
  have hfail2 : ∀ r, pipeRes env order input t0 j = some r →
      r.status = ExecutionStatus.failed := by
    intro r hr
    rw [hres] at hr
    rw [← Option.some_inj.mp hr]
    exact hst
  obtain ⟨h1, h2⟩ := runAgents_stops env order input t0 j hlt hpre hfail2
  rw [executeWorkflow_ok_failed env w input eid t0 order hord h2]
  refine ⟨⟨_, hres, hst, hout⟩, rfl, ?_, rfl, rfl⟩
  rw [h1]
  exact range_filterMap_pipeRes_length env order input t0 (j + 1) (by omega)

/-- C7 witness: in the chain a to b where b raises an exception with
message boom, a completes, b's result is failed carrying boom, and the
record is failed with 2 entries. -/
theorem C7_exception_capture_witness :
    (∃ r, pipeRes cEnvExnB [cA, cB] (Value.vstr "hi") 0 1 = some r ∧
      r.status = ExecutionStatus.failed ∧
      r.output = Value.vdict [("error", Value.vstr "boom")]) ∧
    (executeWorkflow cEnvExnB cWab (Value.vstr "hi") "e1" 0).status
      = ExecutionStatus.failed ∧
    (executeWorkflow cEnvExnB cWab (Value.vstr "hi") "e1" 0).agent_executions.length
      = 1 + 1 ∧
    (executeWorkflow cEnvExnB cWab (Value.vstr "hi") "e1" 0).completed_at.isSome = true ∧
    (executeWorkflow cEnvExnB cWab (Value.vstr "hi") "e1" 0).results = none :=
  C7_exception_capture cEnvExnB cWab (Value.vstr "hi") "e1" 0 [cA, cB] 1 cB "boom"
    (by rfl) (by rfl) (by decide) (by rfl)
    (by
      intro i r hi hr
      rcases i with _ | i
      · exact status_of_pipeRes_eq (by rfl) hr
      · omega)

/-- C8: any resolver failure (for example the KeyError raised for an edge
naming an unknown node) is caught by execute_workflow's top-level handler
and converted into a failed record with completed_at set, no executed
agents, and neither results nor metrics; the function never raises for
workflow-content errors, being total by construction. -/
theorem C8_top_level_catch (env : Env) (w : Workflow) (input : Value) (eid : String)
    (t0 : Nat) (msg : String)
    (h : buildExecutionOrder w = .error msg) :
    (executeWorkflow env w input eid t0).status = ExecutionStatus.failed ∧
    (executeWorkflow env w input eid t0).completed_at = some t0 ∧
    (executeWorkflow env w input eid t0).agent_executions = [] ∧
    (executeWorkflow env w input eid t0).results = none ∧
    (executeWorkflow env w input eid t0).metrics = none := by
  rw [executeWorkflow_err env w input eid t0 msg h]
  exact ⟨rfl, rfl, rfl, rfl, rfl⟩

/-- C8 witness: instantiated on the dangling-edge fixture, whose resolution
raises KeyError: x. -/
theorem C8_top_level_catch_witness :
    (executeWorkflow cEnvOK cWdangle (Value.vstr "hi") "e1" 0).status
      = ExecutionStatus.failed ∧
    (executeWorkflow cEnvOK cWdangle (Value.vstr "hi") "e1" 0).completed_at = some 0 ∧
    (executeWorkflow cEnvOK cWdangle (Value.vstr "hi") "e1" 0).agent_executions = [] ∧
    (executeWorkflow cEnvOK cWdangle (Value.vstr "hi") "e1" 0).results = none ∧
    (executeWorkflow cEnvOK cWdangle (Value.vstr "hi") "e1" 0).metrics = none :=
  C8_top_level_catch cEnvOK cWdangle (Value.vstr "hi") "e1" 0 "KeyError: x" (by rfl)

/-- C9 counterexample: nodes are declared a, b, c (so b precedes c), the
edges a to c and a to b make b and c simultaneously in-degree 0 after a is
processed, yet the resolved order is a, c, b — the tie is broken by the
order of a's adjacency list (edge declaration order), not by node
declaration order. -/
theorem C9_counterexample :
    cWfan2.agents.map (fun a => a.id) = ["a", "b", "c"] ∧
    (buildExecutionOrder cWfan2).map (fun l => l.map (fun a => a.id))
      = Except.ok ["a", "c", "b"] := by
  constructor
  · rfl
  · rfl

/-- C9 amended: the initial seed queue lists zero-in-degree nodes in
declaration order, but nodes becoming ready while a node is processed are
enqueued in that node's outgoing-edge declaration order; with edges
declared [a to b, a to c] the resolved order is a, b, c, and with the same
edges declared [a to c, a to b] it is a, c, b. -/
theorem C9_amended :
    (buildExecutionOrder cWfan1).map (fun l => l.map (fun a => a.id))
      = Except.ok ["a", "b", "c"] ∧
    (buildExecutionOrder cWfan2).map (fun l => l.map (fun a => a.id))
      = Except.ok ["a", "c", "b"] := by
  constructor
  · rfl
  · rfl

/-- C10: if the declared ids are distinct, all edges are valid, the seed set
is non-empty (some node has no incoming edge), and a non-empty set S of
node ids is closed under having a predecessor inside S (as the node set of
any cycle is), then resolution succeeds but returns strictly fewer nodes
than declared, omitting every node of S; with every agent succeeding the
engine then executes only that prefix and finishes with status completed,
reporting exactly order-many agent executions and no signal that declared
nodes were skipped. -/
theorem C10_cycle_omission (env : Env) (w : Workflow) (input : Value) (eid : String)
    (t0 : Nat) (S : List String)
    (hnd : (w.agents.map (fun a => a.id)).Nodup)
    (hvalid : ∀ e ∈ w.edges, e.source ∈ w.agents.map (fun a => a.id)
      ∧ e.target ∈ w.agents.map (fun a => a.id))
    (hSne : S ≠ [])
    (hSsub : ∀ s ∈ S, s ∈ w.agents.map (fun a => a.id))
    (hScyc : ∀ s ∈ S, ∃ e ∈ w.edges, e.target = s ∧ e.source ∈ S)
    (hseed : ∃ a ∈ w.agents, ∀ e ∈ w.edges, e.target ≠ a.id)
    (hreg : ∀ a ∈ w.agents, a.type ∈ env.registry)
    (hok : ∀ n v, ∃ r, env.behave n v = AgentOutcome.ret r ∧ r.success = true) :
    ∃ order, buildExecutionOrder w = .ok order ∧
      order.length < w.agents.length ∧
      (∀ s ∈ S, ∀ b ∈ order, b.id ≠ s) ∧
      (executeWorkflow env w input eid t0).status = ExecutionStatus.completed ∧
      (executeWorkflow env w input eid t0).agent_executions.length = order.length := by
  obtain ⟨order, hord, hlen, hmem, hS⟩ :=
    build_omits_closed_set w S hnd hvalid hSne hSsub hScyc hseed
  have hcomp : ∀ node ∈ order, ∀ v s,
      (executeAgent env node v s).status = ExecutionStatus.completed := by
    intro node hn v s
    obtain ⟨r, hb, hsucc⟩ := hok node v
    have hra := executeAgent_ret_status env node v s r (hreg node (hmem node hn)) hb
    rw [hra.1, hsucc]
    rfl
  obtain ⟨hlen2, hsome⟩ := runAgents_all_easy env order input t0 hcomp
  obtain ⟨out, hout⟩ := Option.isSome_iff_exists.mp hsome
  refine ⟨order, hord, hlen, hS, ?_, ?_⟩
  · rw [executeWorkflow_ok_completed env w input eid t0 order out hord hout]
  · rw [executeWorkflow_ok_completed env w input eid t0 order out hord hout]
    exact hlen2

/-- C10 witness: node a next to the untouched 2-cycle b, c: the resolver
returns only a, the engine runs it, and the execution completes with one
agent execution out of three declared nodes. -/
theorem C10_cycle_omission_witness :
    ∃ order, buildExecutionOrder cWpartcyc = .ok order ∧
      order.length < cWpartcyc.agents.length ∧
      (∀ s ∈ ["b", "c"], ∀ b ∈ order, b.id ≠ s) ∧
      (executeWorkflow cEnvOK cWpartcyc (Value.vstr "hi") "e1" 0).status
        = ExecutionStatus.completed ∧
      (executeWorkflow cEnvOK cWpartcyc (Value.vstr "hi") "e1" 0).agent_executions.length
        = order.length :=
  C10_cycle_omission cEnvOK cWpartcyc (Value.vstr "hi") "e1" 0 ["b", "c"]
    (by decide) (by decide) (by decide) (by decide) (by decide) (by decide) (by decide)
    (fun n v => ⟨_, rfl, rfl⟩)

end SuperAgent
